import Mathlib

/-!
Verification of the core algorithms of the hashed-sorting benchmark repository:
the stateless 64-bit hashers (`src/hashers.rs`), the diverting LSD radix sort
(`src/dlsd.rs`), the fused radix sort-and-count (`src/dlsd_and_count.rs`), the
cache-line-bucketed open-addressing set (`src/u64_hash_set.rs`) and the 256-way
tournament merge sort (`src/wide_merge_sort.rs`).

Machine integers (`u64`, `usize`, `u32`) are modelled as `Nat` with explicit
reduction modulo `2 ^ 64` (resp. `2 ^ 32`) exactly where the Rust code wraps.
Rust operations that panic (assertion failures, arithmetic underflow on
unsigned subtraction in checked builds) or that never terminate are modelled by
returning `none` from an `Option`-valued function.
-/

set_option maxRecDepth 4000

namespace HashedSorting

/-- Modulus of the 64-bit unsigned integers. -/
def U64SIZE : Nat := 2 ^ 64

/-- `u64::MAX`, used by the wide merge sort as its exhaustion sentinel. -/
def U64MAX : Nat := 2 ^ 64 - 1

/-! ### src/hashers.rs -/

/-- `NoopHasher::hash`: the identity policy. -/
def noopHash (x : Nat) : Nat := x

/-- `MurmurHasher::hash_u64`: the MurmurHash3 64-bit finalizer — three rounds of
xor-shift-by-33 interleaved with two wrapping multiplications by fixed odd
constants. -/
def murmurHash (x : Nat) : Nat :=
  let h := x
  let h := h ^^^ (h >>> 33)
  let h := h * 0xff51afd7ed558ccd % U64SIZE
  let h := h ^^^ (h >>> 33)
  let h := h * 0xc4ceb9fe1a85ec53 % U64SIZE
  let h := h ^^^ (h >>> 33)
  h

/-- `u64::swap_bytes`: reverse the byte order of a 64-bit value.  Byte `i`
(value `x / 2 ^ (8 * i) % 256`) moves to byte position `7 - i`. -/
def swapBytes64 (x : Nat) : Nat :=
  (x % 256) * 72057594037927936 +
  (x / 256 % 256) * 281474976710656 +
  (x / 65536 % 256) * 1099511627776 +
  (x / 16777216 % 256) * 4294967296 +
  (x / 4294967296 % 256) * 16777216 +
  (x / 1099511627776 % 256) * 65536 +
  (x / 281474976710656 % 256) * 256 +
  (x / 72057594037927936 % 256)

/-- `MulSwapMulHasher::hash`: wrapping multiply by an odd constant, byte swap,
wrapping multiply by a second odd constant. -/
def mulSwapMulHash (x : Nat) : Nat :=
  let h := x
  let h := h * 0x9e3779b97f4a7c15 % U64SIZE
  let h := swapBytes64 h
  let h := h * 0xc2b2ae3d27d4eb4f % U64SIZE
  h

lemma U64SIZE_eq : U64SIZE = 18446744073709551616 := by norm_num [U64SIZE]

lemma shiftRight_le_self (x k : Nat) : x >>> k ≤ x := by
  simp only [Nat.shiftRight_eq_div_pow]
  exact Nat.div_le_self x (2 ^ k)

/-- One xor-shift-by-33 round is an involution on 64-bit values. -/
lemma xorshift33_invol {x : Nat} (hx : x < U64SIZE) :
    (x ^^^ (x >>> 33)) ^^^ ((x ^^^ (x >>> 33)) >>> 33) = x := by
  apply Nat.eq_of_testBit_eq
  intro i
  have h66 : x.testBit (33 + (33 + i)) = false := by
    apply Nat.testBit_eq_false_of_lt
    calc x < U64SIZE := hx
    _ = 2 ^ 64 := rfl
    _ ≤ 2 ^ (33 + (33 + i)) := Nat.pow_le_pow_right (by norm_num) (by omega)
  simp only [Nat.testBit_xor, Nat.testBit_shiftRight, h66]
  cases x.testBit i <;> cases x.testBit (33 + i) <;> rfl

lemma xorshift33_lt {x : Nat} (hx : x < U64SIZE) : x ^^^ (x >>> 33) < U64SIZE := by
  have : x >>> 33 < U64SIZE := lt_of_le_of_lt (shiftRight_le_self x 33) hx
  exact Nat.xor_lt_two_pow hx this

lemma xorshift33_inj {x y : Nat} (hx : x < U64SIZE) (hy : y < U64SIZE)
    (h : x ^^^ (x >>> 33) = y ^^^ (y >>> 33)) : x = y := by
  have := xorshift33_invol hx
  rw [h, xorshift33_invol hy] at this
  exact this.symm

/-- Wrapping multiplication by an odd constant is injective on 64-bit values. -/
lemma mulOdd_inj (c : Nat) (hc : c % 2 = 1) {x y : Nat}
    (hx : x < U64SIZE) (hy : y < U64SIZE)
    (h : x * c % U64SIZE = y * c % U64SIZE) : x = y := by
  have hco : Nat.gcd U64SIZE c = 1 := by
    have h2 : Nat.Coprime 2 c := Nat.coprime_two_left.mpr (Nat.odd_iff.mpr hc)
    exact (Nat.Coprime.pow_left 64 h2 : Nat.Coprime (2 ^ 64) c)
  have hmod : c * x ≡ c * y [MOD U64SIZE] := by
    unfold Nat.ModEq
    rw [Nat.mul_comm c x, Nat.mul_comm c y]
    exact h
  have hxy := Nat.ModEq.cancel_left_of_coprime hco hmod
  unfold Nat.ModEq at hxy
  rw [Nat.mod_eq_of_lt hx, Nat.mod_eq_of_lt hy] at hxy
  exact hxy

lemma mulOdd_lt (c x : Nat) : x * c % U64SIZE < U64SIZE :=
  Nat.mod_lt _ (by norm_num [U64SIZE])

lemma swapBytes64_lt (x : Nat) : swapBytes64 x < U64SIZE := by
  rw [U64SIZE_eq]
  unfold swapBytes64
  omega

/-- Extracting the base-256 digit sitting at place value `p` from a number in
grouped form. -/
lemma digit_extract (hi mid lo p : Nat) (hp : 0 < p) (hmid : mid < 256)
    (hlo : lo < p) :
    (hi * (p * 256) + mid * p + lo) / p % 256 = mid := by
  have h1 : hi * (p * 256) + mid * p + lo = lo + (hi * 256 + mid) * p := by ring
  rw [h1, Nat.add_mul_div_right _ _ hp, Nat.div_eq_of_lt hlo, Nat.zero_add,
    Nat.add_comm (hi * 256) mid, Nat.add_mul_mod_self_right,
    Nat.mod_eq_of_lt hmid]

lemma byte_lt (x p : Nat) : x / p % 256 < 256 := Nat.mod_lt _ (by norm_num)

lemma swapBytes64_byte0 (x : Nat) :
    swapBytes64 x % 256 = x / 72057594037927936 % 256 := by
  unfold swapBytes64; omega

lemma swapBytes64_byte1 (x : Nat) :
    swapBytes64 x / 256 % 256 = x / 281474976710656 % 256 := by
  have h : swapBytes64 x =
      ((x % 256) * 1099511627776 + (x / 256 % 256) * 4294967296 +
        (x / 65536 % 256) * 16777216 + (x / 16777216 % 256) * 65536 +
        (x / 4294967296 % 256) * 256 + (x / 1099511627776 % 256)) * (256 * 256) +
      (x / 281474976710656 % 256) * 256 + (x / 72057594037927936 % 256) := by
    unfold swapBytes64; ring
  rw [h, digit_extract _ _ _ _ (by norm_num) (byte_lt x _) (by
    have h1 := byte_lt x 72057594037927936; omega)]

lemma swapBytes64_byte2 (x : Nat) :
    swapBytes64 x / 65536 % 256 = x / 1099511627776 % 256 := by
  have h : swapBytes64 x =
      ((x % 256) * 4294967296 + (x / 256 % 256) * 16777216 +
        (x / 65536 % 256) * 65536 + (x / 16777216 % 256) * 256 +
        (x / 4294967296 % 256)) * (65536 * 256) +
      (x / 1099511627776 % 256) * 65536 +
      ((x / 281474976710656 % 256) * 256 + (x / 72057594037927936 % 256)) := by
    unfold swapBytes64; ring
  rw [h, digit_extract _ _ _ _ (by norm_num) (byte_lt x _) (by
    have h1 := byte_lt x 281474976710656
    have h2 := byte_lt x 72057594037927936; omega)]

lemma swapBytes64_byte3 (x : Nat) :
    swapBytes64 x / 16777216 % 256 = x / 4294967296 % 256 := by
  have h : swapBytes64 x =
      ((x % 256) * 16777216 + (x / 256 % 256) * 65536 +
        (x / 65536 % 256) * 256 + (x / 16777216 % 256)) * (16777216 * 256) +
      (x / 4294967296 % 256) * 16777216 +
      ((x / 1099511627776 % 256) * 65536 + (x / 281474976710656 % 256) * 256 +
        (x / 72057594037927936 % 256)) := by
    unfold swapBytes64; ring
  rw [h, digit_extract _ _ _ _ (by norm_num) (byte_lt x _) (by
    have h1 := byte_lt x 1099511627776
    have h2 := byte_lt x 281474976710656
    have h3 := byte_lt x 72057594037927936; omega)]

lemma swapBytes64_byte4 (x : Nat) :
    swapBytes64 x / 4294967296 % 256 = x / 16777216 % 256 := by
  have h : swapBytes64 x =
      ((x % 256) * 65536 + (x / 256 % 256) * 256 + (x / 65536 % 256)) *
        (4294967296 * 256) +
      (x / 16777216 % 256) * 4294967296 +
      ((x / 4294967296 % 256) * 16777216 + (x / 1099511627776 % 256) * 65536 +
        (x / 281474976710656 % 256) * 256 + (x / 72057594037927936 % 256)) := by
    unfold swapBytes64; ring
  rw [h, digit_extract _ _ _ _ (by norm_num) (byte_lt x _) (by
    have h1 := byte_lt x 4294967296
    have h2 := byte_lt x 1099511627776
    have h3 := byte_lt x 281474976710656
    have h4 := byte_lt x 72057594037927936; omega)]

lemma swapBytes64_byte5 (x : Nat) :
    swapBytes64 x / 1099511627776 % 256 = x / 65536 % 256 := by
  have h : swapBytes64 x =
      ((x % 256) * 256 + (x / 256 % 256)) * (1099511627776 * 256) +
      (x / 65536 % 256) * 1099511627776 +
      ((x / 16777216 % 256) * 4294967296 + (x / 4294967296 % 256) * 16777216 +
        (x / 1099511627776 % 256) * 65536 + (x / 281474976710656 % 256) * 256 +
        (x / 72057594037927936 % 256)) := by
    unfold swapBytes64; ring
  rw [h, digit_extract _ _ _ _ (by norm_num) (byte_lt x _) (by
    have h1 := byte_lt x 16777216
    have h2 := byte_lt x 4294967296
    have h3 := byte_lt x 1099511627776
    have h4 := byte_lt x 281474976710656
    have h5 := byte_lt x 72057594037927936; omega)]

lemma swapBytes64_byte6 (x : Nat) :
    swapBytes64 x / 281474976710656 % 256 = x / 256 % 256 := by
  have h : swapBytes64 x =
      (x % 256) * (281474976710656 * 256) +
      (x / 256 % 256) * 281474976710656 +
      ((x / 65536 % 256) * 1099511627776 + (x / 16777216 % 256) * 4294967296 +
        (x / 4294967296 % 256) * 16777216 + (x / 1099511627776 % 256) * 65536 +
        (x / 281474976710656 % 256) * 256 + (x / 72057594037927936 % 256)) := by
    unfold swapBytes64; ring
  rw [h, digit_extract _ _ _ _ (by norm_num) (byte_lt x _) (by
    have h1 := byte_lt x 65536
    have h2 := byte_lt x 16777216
    have h3 := byte_lt x 4294967296
    have h4 := byte_lt x 1099511627776
    have h5 := byte_lt x 281474976710656
    have h6 := byte_lt x 72057594037927936; omega)]

lemma swapBytes64_byte7 (x : Nat) :
    swapBytes64 x / 72057594037927936 % 256 = x % 256 := by
  have h : swapBytes64 x =
      0 * (72057594037927936 * 256) + (x % 256) * 72057594037927936 +
      ((x / 256 % 256) * 281474976710656 + (x / 65536 % 256) * 1099511627776 +
        (x / 16777216 % 256) * 4294967296 + (x / 4294967296 % 256) * 16777216 +
        (x / 1099511627776 % 256) * 65536 + (x / 281474976710656 % 256) * 256 +
        (x / 72057594037927936 % 256)) := by
    unfold swapBytes64; ring
  rw [h, digit_extract _ _ _ _ (by norm_num) (Nat.mod_lt _ (by norm_num)) (by
    have h1 := byte_lt x 256
    have h2 := byte_lt x 65536
    have h3 := byte_lt x 16777216
    have h4 := byte_lt x 4294967296
    have h5 := byte_lt x 1099511627776
    have h6 := byte_lt x 281474976710656
    have h7 := byte_lt x 72057594037927936; omega)]

/-- Byte swapping is an involution on 64-bit values. -/
lemma swapBytes64_invol {x : Nat} (hx : x < U64SIZE) :
    swapBytes64 (swapBytes64 x) = x := by
  rw [U64SIZE_eq] at hx
  conv_lhs => rw [swapBytes64]
  rw [swapBytes64_byte0, swapBytes64_byte1, swapBytes64_byte2, swapBytes64_byte3,
    swapBytes64_byte4, swapBytes64_byte5, swapBytes64_byte6, swapBytes64_byte7]
  omega

lemma swapBytes64_inj {x y : Nat} (hx : x < U64SIZE) (hy : y < U64SIZE)
    (h : swapBytes64 x = swapBytes64 y) : x = y := by
  have := swapBytes64_invol hx
  rw [h, swapBytes64_invol hy] at this
  exact this.symm

lemma murmurHash_inj {x y : Nat} (hx : x < U64SIZE) (hy : y < U64SIZE)
    (h : murmurHash x = murmurHash y) : x = y := by
  unfold murmurHash at h
  simp only at h
  have h1x := xorshift33_lt hx
  have h1y := xorshift33_lt hy
  have h2x := mulOdd_lt 0xff51afd7ed558ccd (x ^^^ (x >>> 33))
  have h2y := mulOdd_lt 0xff51afd7ed558ccd (y ^^^ (y >>> 33))
  have h3x := xorshift33_lt h2x
  have h3y := xorshift33_lt h2y
  have h4x := mulOdd_lt 0xc4ceb9fe1a85ec53
    ((x ^^^ x >>> 33) * 0xff51afd7ed558ccd % U64SIZE ^^^
      ((x ^^^ x >>> 33) * 0xff51afd7ed558ccd % U64SIZE) >>> 33)
  have h4y := mulOdd_lt 0xc4ceb9fe1a85ec53
    ((y ^^^ y >>> 33) * 0xff51afd7ed558ccd % U64SIZE ^^^
      ((y ^^^ y >>> 33) * 0xff51afd7ed558ccd % U64SIZE) >>> 33)
  have e4 := xorshift33_inj h4x h4y h
  have e3 := mulOdd_inj 0xc4ceb9fe1a85ec53 (by norm_num) h3x h3y e4
  have e2 := xorshift33_inj h2x h2y e3
  have e1 := mulOdd_inj 0xff51afd7ed558ccd (by norm_num) h1x h1y e2
  exact xorshift33_inj hx hy e1

lemma mulSwapMulHash_inj {x y : Nat} (hx : x < U64SIZE) (hy : y < U64SIZE)
    (h : mulSwapMulHash x = mulSwapMulHash y) : x = y := by
  unfold mulSwapMulHash at h
  simp only at h
  have h1x := mulOdd_lt 0x9e3779b97f4a7c15 x
  have h1y := mulOdd_lt 0x9e3779b97f4a7c15 y
  have h2x := swapBytes64_lt (x * 0x9e3779b97f4a7c15 % U64SIZE)
  have h2y := swapBytes64_lt (y * 0x9e3779b97f4a7c15 % U64SIZE)
  have e2 := mulOdd_inj 0xc2b2ae3d27d4eb4f (by norm_num) h2x h2y h
  have e1 := swapBytes64_inj h1x h1y e2
  exact mulOdd_inj 0x9e3779b97f4a7c15 (by norm_num) hx hy e1

/-- Claim C8: each of the three provided hash policies — Identity
(`NoopHasher`), the MurmurHash3 finalizer (`MurmurHasher`, three
xor-shift-by-33 rounds interleaved with two odd-constant multiplications mod
`2 ^ 64`), and the cheap mix (`MulSwapMulHasher`: odd multiply, byte swap, odd
multiply mod `2 ^ 64`) — is injective on 64-bit values: for every pair of
64-bit keys `x ≠ y`, `hash x ≠ hash y`. -/
theorem claim_C8_hashers_injective :
    ∀ x y : Nat, x < 2 ^ 64 → y < 2 ^ 64 → x ≠ y →
      noopHash x ≠ noopHash y ∧ murmurHash x ≠ murmurHash y ∧
        mulSwapMulHash x ≠ mulSwapMulHash y := by
  intro x y hx hy hxy
  refine ⟨fun h => hxy h, fun h => hxy ?_, fun h => hxy ?_⟩
  · exact murmurHash_inj hx hy h
  · exact mulSwapMulHash_inj hx hy h

/-- Witness for C8 at the concrete pair `x = 0`, `y = 1`. -/
theorem claim_C8_hashers_injective_witness :
    noopHash 0 ≠ noopHash 1 ∧ murmurHash 0 ≠ murmurHash 1 ∧
      mulSwapMulHash 0 ≠ mulSwapMulHash 1 :=
  claim_C8_hashers_injective 0 1 (by norm_num) (by norm_num) (by decide)

/-! ### Machine-integer helpers shared by the remaining modules

`usize::next_power_of_two` and `u64::ilog2` are written with explicit fuel so
that the kernel can evaluate them; 64 doublings (resp. halvings) suffice for
every 64-bit argument. -/

/-- Doubling loop of `next_power_of_two`: the least power of two `≥ n`
reachable from `power` within `fuel` doublings. -/
def nextPow2go (n : Nat) : Nat → Nat → Nat
  | _, 0 => n
  | power, fuel + 1 => if power < n then nextPow2go n (power * 2) fuel else power

/-- Rust `usize::next_power_of_two` on a 64-bit `usize`: least power of two
`≥ n`; on overflow (`n > 2 ^ 63`) a release build wraps the result to 0 (a
debug build panics). -/
def rustNextPow2 (n : Nat) : Nat :=
  if n ≤ 2 ^ 63 then nextPow2go n 1 64 else 0

/-- Halving loop of `ilog2`. -/
def ilog2go : Nat → Nat → Nat
  | 0, _ => 0
  | fuel + 1, n => if 2 ≤ n then ilog2go fuel (n / 2) + 1 else 0

/-- Rust `u64::ilog2`: floor of the base-2 logarithm (the argument is never 0
at the call sites modelled here). -/
def rustIlog2 (n : Nat) : Nat := ilog2go 64 n

lemma nextPow2go_ge (n : Nat) : ∀ fuel power, n ≤ power * 2 ^ fuel →
    n ≤ nextPow2go n power fuel := by
  intro fuel
  induction fuel with
  | zero => intro power h; exact Nat.le_refl n
  | succ f ih =>
    intro power h
    unfold nextPow2go
    by_cases hc : power < n
    · simp only [hc, if_true]
      apply ih
      calc n ≤ power * 2 ^ (f + 1) := h
      _ = power * 2 * 2 ^ f := by ring
    · simp only [hc, if_false]
      omega

lemma rustNextPow2_ge (n : Nat) (h : n ≤ 2 ^ 63) : n ≤ rustNextPow2 n := by
  unfold rustNextPow2
  rw [if_pos h]
  apply nextPow2go_ge
  calc n ≤ 2 ^ 63 := h
  _ ≤ 1 * 2 ^ 64 := by norm_num

lemma ilog2go_pos {fuel n : Nat} (hf : 1 ≤ fuel) (hn : 2 ≤ n) :
    1 ≤ ilog2go fuel n := by
  cases fuel with
  | zero => omega
  | succ f => unfold ilog2go; rw [if_pos hn]; omega

/-! ### src/u64_hash_set.rs -/

/-- `BUCKET_SIZE`: key slots per cache-line-sized bucket. -/
def BUCKET_SIZE : Nat := 8

/-- State of a `U64HashSet`: the bucketed slot table (slot value 0 = empty),
the `len` field, and the `has_zero` flag for the literal key 0. -/
structure U64HashSet where
  table : List (List Nat)
  len : Nat
  has_zero : Bool
deriving DecidableEq

/-- `U64HashSet::with_capacity`:
`num_buckets = (capacity.next_power_of_two() * 2).div_ceil(BUCKET_SIZE)`,
with the `usize` multiplication wrapping modulo `2 ^ 64` in release builds
(the code's own `TODO: integer overflow...` comment notes that overflow is
not handled).  Every bucket starts as 8 zero slots. -/
def withCapacity (capacity : Nat) : U64HashSet :=
  let num_buckets := (rustNextPow2 capacity * 2 % U64SIZE + (BUCKET_SIZE - 1)) / BUCKET_SIZE
  { table := List.replicate num_buckets (List.replicate BUCKET_SIZE 0)
    len := 0
    has_zero := false }

/-- Result of probing one bucket: an empty slot at the given intra-bucket
index, or a slot already holding the probed key. -/
inductive ProbeHit where
  | empty (slot : Nat)
  | matched
deriving DecidableEq

/-- Inner loop of `U64HashSet::insert`: probe the 8 slots of one bucket
circularly starting at `offset`, stopping at the first empty (0) slot or at a
slot holding `key`.  `i` is the loop counter `element_i`, `fuel` the number of
slots left to try (`BUCKET_SIZE` at entry). -/
def probeSlots (bucket : List Nat) (offset key : Nat) : Nat → Nat → Option ProbeHit
  | 0, _ => none
  | fuel + 1, i =>
    let slot := (i + offset) % BUCKET_SIZE
    let v := bucket.getD slot 0
    if v = 0 then some (ProbeHit.empty slot)
    else if v = key then some ProbeHit.matched
    else probeSlots bucket offset key fuel (i + 1)

/-- Outer loop of `U64HashSet::insert`: starting from bucket index
`bucket_i & (table.len() - 1)`, probe bucket after bucket.  The Rust loop has
no exit when no empty slot and no match exists; since the table is unchanged
while probing and the bucket index cycles with period `table.length`, giving
the loop `table.length` iterations of fuel is exact: `none` means the Rust
loop spins forever.  Returns the updated table and whether a new key was
written (`len` must then be incremented). -/
def insertGo (table : List (List Nat)) (key offset : Nat) :
    Nat → Nat → Option (List (List Nat) × Bool)
  | 0, _ => none
  | fuel + 1, bucket_i =>
    let mask := table.length - 1
    let bi := bucket_i &&& mask
    let bucket := table.getD bi []
    match probeSlots bucket offset key BUCKET_SIZE 0 with
    | some (ProbeHit.empty slot) => some (table.set bi (bucket.set slot key), true)
    | some ProbeHit.matched => some (table, false)
    | none => insertGo table key offset fuel (bucket_i + 1)

/-- `U64HashSet::insert`.  A zero key only sets `has_zero` (and bumps the
`len` field on the first such call).  A nonzero key is probed from bucket
`hash64 & bucket_mask` with initial intra-bucket offset `hash64 >> 61`. -/
def insertO (hash : Nat → Nat) (s : U64HashSet) (key : Nat) : Option U64HashSet :=
  if key = 0 then
    some { s with len := s.len + (if s.has_zero then 0 else 1), has_zero := true }
  else
    let hash64 := hash key
    let element_offset := hash64 >>> 61
    match insertGo s.table key element_offset s.table.length hash64 with
    | some (t, inc) =>
        some { s with table := t, len := s.len + (if inc then 1 else 0) }
    | none => none

/-- `U64HashSet::len`: `self.len + self.has_zero as usize`. -/
def lenO (s : U64HashSet) : Nat := s.len + (if s.has_zero then 1 else 0)

/-- Insert a whole list of keys in order; `none` as soon as one insert hangs. -/
def insertAll (hash : Nat → Nat) (s : U64HashSet) (keys : List Nat) :
    Option U64HashSet :=
  keys.foldlM (fun acc k => insertO hash acc k) s

/-- Claim C3 (code bug, evaluation): on a `U64HashSet` of capacity 16 the
insertion sequence `[0, 5, 0, 21, 5]` makes `len()` report 4, not the 3
distinct keys actually inserted: the first `insert(0)` increments the `len`
field and `len()` then adds `has_zero` on top of it, so the zero key is
counted twice. -/
theorem claim_C3_zero_double_count :
    (insertAll noopHash (withCapacity 16) [0, 5, 0, 21, 5]).map lenO = some 4 ∧
      [0, 5, 0, 21, 5].dedup.length = 3 := by
  constructor
  · rfl
  · rfl

/-- Claim C5 (code bug, evaluation): `with_capacity` has no overflow check.
At capacity `2 ^ 63` the release-mode `usize` arithmetic wraps the bucket
count to 0 and construction silently yields an empty table (a well-formed
request like 16 yields 4 buckets); no capacity-overflow error exists — the
function's return type has no error path at all. -/
theorem claim_C5_with_capacity_silent_wrap :
    (withCapacity (2 ^ 63)).table.length = 0 ∧
      (withCapacity (2 ^ 63 + 1)).table.length = 0 ∧
      (withCapacity 16).table.length = 4 := by
  refine ⟨?_, ?_, ?_⟩ <;> rfl

/-! ### src/dlsd.rs and src/dlsd_and_count.rs

Shared constants and helpers of the two radix-sort modules. -/

def LG_RADIX : Nat := 10

def RADIX : Nat := 1 <<< LG_RADIX

def WORD_BITS : Nat := 64

def CHUNK_SIZE : Nat := 4

def DO_INSERTION_SORT : Bool := true

def LG_MAX_DIVERSION_SIZE : Nat := if DO_INSERTION_SORT then 0 else 5

/-- `as_chunks::<CHUNK_SIZE>().0`, flattened back into the element order in
which the loops traverse it: only the elements of full 4-element chunks. -/
def fullChunks (data : List Nat) : List Nat :=
  data.take (data.length / CHUNK_SIZE * CHUNK_SIZE)

/-- `read_radix`: the 10-bit digit of `word` consumed by pass `pass` out of
`passes`; pass 0 reads the lowest consumed digit group, the final pass the top
10 bits. -/
def readRadix (word pass passes : Nat) : Nat :=
  (word >>> (WORD_BITS - (passes - pass) * LG_RADIX)) &&& (RADIX - 1)

/-- `read_last_pass_radix` (dlsd_and_count): the top `last_pass_radix` bits. -/
def readLastPassRadix (word lastPassRadix : Nat) : Nat :=
  word >>> (WORD_BITS - lastPassRadix)

/-- The `passes` computation of `dlsd_sort` (dlsd.rs lines 14–19):
`next_power_of_two().ilog2().saturating_sub(LG_MAX_DIVERSION_SIZE)
.div_ceil(LG_RADIX)`.  With `DO_INSERTION_SORT = true` the diversion constant
is 0, so this is `ceil(log2(nextPowerOfTwo(n)) / 10)`. -/
def dlsdPasses (n : Nat) : Nat :=
  (rustIlog2 (rustNextPow2 n) - LG_MAX_DIVERSION_SIZE + (LG_RADIX - 1)) / LG_RADIX

/-- Histogram accumulation of `compute_counts` (dlsd.rs): one scan that hashes
every element (of the full chunks) and counts every pass's digit.  Returns the
hashed data and the per-pass histograms. -/
def computeCounts (hash : Nat → Nat) (passes : Nat) (origData : List Nat) :
    List Nat × (Nat → Nat → Nat) :=
  (fullChunks origData).foldl
    (fun acc word =>
      let h := hash word
      let counts := (List.range passes).foldl
        (fun c pass =>
          let radix := readRadix h pass passes
          Function.update c pass (Function.update (c pass) radix (c pass radix + 1)))
        acc.2
      (acc.1 ++ [h], counts))
    ([], fun _ _ => 0)

/-- Histogram accumulation of `compute_counts` (dlsd_and_count.rs): passes
`0 .. passes-1` use `read_radix`, the final pass uses `read_last_pass_radix`. -/
def computeCountsC (hash : Nat → Nat) (passes lastPassRadix : Nat)
    (origData : List Nat) : List Nat × (Nat → Nat → Nat) :=
  (fullChunks origData).foldl
    (fun acc word =>
      let h := hash word
      let counts := (List.range (passes - 1)).foldl
        (fun c pass =>
          let radix := readRadix h pass passes
          Function.update c pass (Function.update (c pass) radix (c pass radix + 1)))
        acc.2
      let radix := readLastPassRadix h lastPassRadix
      let counts := Function.update counts (passes - 1)
        (Function.update (counts (passes - 1)) radix (counts (passes - 1) radix + 1))
      (acc.1 ++ [h], counts))
    ([], fun _ _ => 0)

/-- Starting cursors of one pass: `heads[i] = Σ_{j < i} counts[pass][j]`,
built by the prefix-sum loop over the `RADIX` digit values. -/
def buildHeads (counts : Nat → Nat → Nat) (pass : Nat) : Nat → Nat :=
  ((List.range RADIX).foldl
    (fun (st : (Nat → Nat) × Nat) i => (Function.update st.1 i st.2, st.2 + counts pass i))
    (fun _ => 0, 0)).1

/-- One non-last radix pass: scatter every element of `fromB` into `toB` at
its digit's cursor, advancing that cursor. -/
def scatterPass (counts : Nat → Nat → Nat) (pass passes : Nat)
    (fromB toB : List Nat) : List Nat :=
  ((fullChunks fromB).foldl
    (fun (st : (Nat → Nat) × List Nat) word =>
      let radix := readRadix word pass passes
      let pos := st.1 radix
      (Function.update st.1 radix (pos + 1), st.2.set pos word))
    (buildHeads counts pass, toB)).2

/-- The backward-shifting insertion step of the fused final pass:
`while j > start && to[j-1] > word { to[j] = to[j-1]; j -= 1 }; to[j] = word`.
Returns the updated buffer and the insertion position `j`. -/
def insertShift (start word : Nat) : List Nat → Nat → List Nat × Nat
  | toB, 0 => (toB.set 0 word, 0)
  | toB, j + 1 =>
    if start ≤ j ∧ word < toB.getD j 0 then
      insertShift start word (toB.set (j + 1) (toB.getD j 0)) j
    else (toB.set (j + 1) word, j + 1)

/-- `(start, pos)` cursors of the final pass, both initialised to the bucket
start offsets. -/
def buildHeads2 (counts : Nat → Nat → Nat) (pass : Nat) : Nat → Nat × Nat :=
  ((List.range RADIX).foldl
    (fun (st : (Nat → Nat × Nat) × Nat) i =>
      (Function.update st.1 i (st.2, st.2), st.2 + counts pass i))
    (fun _ => (0, 0), 0)).1

/-- Final pass of `dlsd_sort`: dealing fused with per-bucket insertion sort. -/
def lastPassSort (counts : Nat → Nat → Nat) (pass passes : Nat)
    (fromB toB : List Nat) : List Nat :=
  ((fullChunks fromB).foldl
    (fun (st : (Nat → Nat × Nat) × List Nat) word =>
      let radix := readRadix word pass passes
      let sp := st.1 radix
      let r := insertShift sp.1 word st.2 sp.2
      (Function.update st.1 radix (sp.1, sp.2 + 1), r.1))
    (buildHeads2 counts pass, toB)).2

/-- `dlsd_sort` (dlsd.rs).  `none` models a run that cannot return a value:
the `assert!(len % CHUNK_SIZE == 0)` failing, the `0..passes - 1` loop bound
underflowing when `passes = 0` (empty input), or the `u32` shift amount
`64 - 7 * 10` in `read_radix` underflowing when `passes = 7` (inputs beyond
`2 ^ 60` elements, unrepresentable in practice).  The non-last passes scatter
between the ping-pong buffers (swapping after each pass), the final pass deals
with fused insertion sort, and the function returns the contents of the `data`
buffer after `if passes % 2 == 1 { to.copy_from_slice(from) }` — when `passes`
is odd, `from` aliases `data`, so the returned buffer is the pre-final-pass
one, while the copy overwrites the freshly sorted `aux`. -/
def dlsdSort (hash : Nat → Nat) (origData : List Nat) : Option (List Nat) :=
  let passes := dlsdPasses origData.length
  if origData.length % CHUNK_SIZE ≠ 0 then none
  else if passes = 0 then none
  else if 6 < passes then none
  else
    let dc := computeCounts hash passes origData
    let data := dc.1
    let counts := dc.2
    let aux := List.replicate data.length 0
    let ft := (List.range (passes - 1)).foldl
      (fun (ft : List Nat × List Nat) pass =>
        (scatterPass counts pass passes ft.1 ft.2, ft.1))
      (data, aux)
    let toB := lastPassSort counts (passes - 1) passes ft.1 ft.2
    some (if passes % 2 = 1 then ft.1 else toB)

/-- Final pass of `dlsd_sort_and_count`: dealing fused with insertion sort and
distinct counting.  After placing `word` at `j`: if `j > start`, count it when
it differs from its predecessor, and reset the cursor to the bucket start when
the predecessor belongs to a different `sorted_bits_mask` group; if
`j == start` always count it. -/
def lastPassCount (counts : Nat → Nat → Nat) (passes lastPassRadix : Nat)
    (fromB toB : List Nat) : Nat :=
  let sortedBitsMask := (U64SIZE - (1 <<< (WORD_BITS - passes * LG_RADIX))) % U64SIZE
  ((fullChunks fromB).foldl
    (fun (st : ((Nat → Nat × Nat) × List Nat) × Nat) word =>
      let radix := readLastPassRadix word lastPassRadix
      let sp := st.1.1 radix
      let r := insertShift sp.1 word st.1.2 sp.2
      let toB := r.1
      let j := r.2
      if sp.1 < j then
        let prev := toB.getD (j - 1) 0
        let uc := st.2 + (if prev < word then 1 else 0)
        let newPos := if prev &&& sortedBitsMask ≠ word &&& sortedBitsMask then
          sp.1 + 1 else sp.2 + 1
        ((Function.update st.1.1 radix (sp.1, newPos), toB), uc)
      else
        ((Function.update st.1.1 radix (sp.1, sp.2 + 1), toB), st.2 + 1))
    ((buildHeads2 counts (passes - 1), toB), 0)).2

/-- `dlsd_sort_and_count` (dlsd_and_count.rs).  `none` models the length
assertion failing, the `passes as u32 - 1` underflow in `last_pass_radix` when
`passes = 0` (empty input), or the `u32` underflow `64 - 7 * 10` in the
`sorted_bits_mask` shift when `passes = 7`. -/
def dlsdSortAndCount (hash : Nat → Nat) (origData : List Nat) : Option Nat :=
  let sumOfRadixes := rustIlog2 (rustNextPow2 origData.length)
  let passes := (sumOfRadixes + (LG_RADIX - 1)) / LG_RADIX
  if passes = 0 then none
  else if 6 < passes then none
  else
    let lastPassRadix := sumOfRadixes - (passes - 1) * LG_RADIX
    if origData.length % CHUNK_SIZE ≠ 0 then none
    else
      let dc := computeCountsC hash passes lastPassRadix origData
      let data := dc.1
      let counts := dc.2
      let aux := List.replicate data.length 0
      let ft := (List.range (passes - 1)).foldl
        (fun (ft : List Nat × List Nat) pass =>
          (scatterPass counts pass passes ft.1 ft.2, ft.1))
        (data, aux)
      some (lastPassCount counts passes lastPassRadix ft.1 ft.2)

/-! ### Claims about the radix-sort modules -/

/-- Claim C1 (code bug, evaluation): `dlsd_sort` with the Identity policy on
the multiple-of-4-length input `[5, 3, 2, 1]` returns the hashed input in its
original, unsorted order instead of `[1, 2, 3, 5]`.  With one radix pass
(`passes` odd) the fused final pass deposits the sorted result in the `aux`
buffer, but the final fix-up `to.copy_from_slice(from)` copies in the wrong
direction — it clobbers the sorted `aux` with the stale `data` buffer and the
function returns `data` untouched. -/
theorem claim_C1_odd_passes_returns_unsorted :
    dlsdSort noopHash [5, 3, 2, 1] = some [5, 3, 2, 1] ∧
      dlsdSort noopHash [5, 3, 2, 1] ≠ some [1, 2, 3, 5] := by
  exact ⟨rfl, by decide⟩

/-- Claim C2 (code bug, evaluation): `dlsd_sort_and_count` with the Identity
policy on `[0, 2^54, 2^54, 0]` (length 4, two distinct values) returns 3.
The group-mask cursor reset (`head.pos = head.start`) fires on the first
element of a new group but leaves that element stranded at its insertion
position outside the `[start, pos)` window, so its duplicate is compared
against a stale slot and counted a second time. -/
theorem claim_C2_count_distinct_overcounts :
    dlsdSortAndCount noopHash [0, 2 ^ 54, 2 ^ 54, 0] = some 3 ∧
      [0, 2 ^ 54, 2 ^ 54, 0].dedup.length = 2 := by
  exact ⟨rfl, by decide⟩

/-- Claim C7 counterexample: on the spec's concrete scenario
`data = [5, 3, 3, 1, 2, 1]` (length 6, not a multiple of 4) `dlsd_sort` does
not return `[1, 1, 2, 3, 3, 5]` — the `assert!(len % CHUNK_SIZE == 0)` fails
and no value is produced. -/
theorem claim_C7_counterexample :
    dlsdSort noopHash [5, 3, 3, 1, 2, 1] ≠ some [1, 1, 2, 3, 3, 5] := by
  decide

/-- Claim C7 as amended: both `dlsd_sort` and `dlsd_sort_and_count` reject the
length-6 input `[5, 3, 3, 1, 2, 1]` via the multiple-of-4 length assertion
(modelled as `none`) instead of yielding `[1, 1, 2, 3, 3, 5]` and 4. -/
theorem claim_C7_amended :
    dlsdSort noopHash [5, 3, 3, 1, 2, 1] = none ∧
      dlsdSortAndCount noopHash [5, 3, 3, 1, 2, 1] = none := by
  exact ⟨rfl, rfl⟩

lemma nextPow2go_le_pow (n k : Nat) (hn : n ≤ 2 ^ k) :
    ∀ fuel j, 2 ^ j ≤ 2 ^ k → nextPow2go n (2 ^ j) fuel ≤ 2 ^ k := by
  intro fuel
  induction fuel with
  | zero => intro j _; exact hn
  | succ f ih =>
    intro j hj
    unfold nextPow2go
    by_cases hc : 2 ^ j < n
    · simp only [hc, if_true]
      have hjk : j < k := by
        by_contra hge
        have : 2 ^ k ≤ 2 ^ j := Nat.pow_le_pow_right (by norm_num) (by omega)
        omega
      have h2 : (2 ^ j) * 2 = 2 ^ (j + 1) := by rw [Nat.pow_succ]
      rw [h2]
      exact ih (j + 1) (Nat.pow_le_pow_right (by norm_num) (by omega))
    · simp only [hc, if_false]
      exact hj

lemma rustNextPow2_le_pow {n k : Nat} (hn : n ≤ 2 ^ k) (hk : k ≤ 63) :
    rustNextPow2 n ≤ 2 ^ k := by
  unfold rustNextPow2
  rw [if_pos (le_trans hn (Nat.pow_le_pow_right (by norm_num) hk))]
  have := nextPow2go_le_pow n k hn 64 0 (Nat.one_le_two_pow)
  simpa using this

lemma ilog2go_le : ∀ fuel n k, n < 2 ^ (k + 1) → ilog2go fuel n ≤ k := by
  intro fuel
  induction fuel with
  | zero => intro n k _; simp [ilog2go]
  | succ f ih =>
    intro n k h
    unfold ilog2go
    by_cases hc : 2 ≤ n
    · simp only [hc, if_true]
      have hk : 1 ≤ k := by
        by_contra hk0
        interval_cases k
        · omega
      have : n / 2 < 2 ^ (k - 1 + 1) := by
        have : n / 2 < 2 ^ k := by
          apply Nat.div_lt_of_lt_mul
          calc n < 2 ^ (k + 1) := h
          _ = 2 * 2 ^ k := by rw [Nat.pow_succ]; ring
        rwa [Nat.sub_add_cancel hk]
      have := ih (n / 2) (k - 1) this
      omega
    · simp only [hc, if_false]
      omega

/-- Claim C6 counterexample: on the empty input (length 0, a multiple of 4)
`dlsd_sort` does not perform `ceil(log2(nextPowerOfTwo(0)) / 10) = 0` radix
passes and return — `passes = 0` makes the `0..passes - 1` loop bound
underflow and the function fails (modelled as `none`). -/
theorem claim_C6_counterexample : dlsdSort noopHash [] = none := by rfl

/-- Claim C6 as amended: for every nonempty input whose length is a multiple
of 4 (and representable: at most `2 ^ 60` elements, past which the `u32` shift
`64 - passes * 10` in `read_radix` would underflow), `dlsd_sort` runs and the
radix passes it performs — `passes - 1` scatter passes plus the fused final
pass — number exactly `ceil(log2(nextPowerOfTwo(n)) / 10)`, which is between 1
and 6. -/
theorem claim_C6_pass_count (hash : Nat → Nat) (data : List Nat)
    (h4 : data.length % 4 = 0) (h0 : 0 < data.length)
    (hb : data.length ≤ 2 ^ 60) :
    (∃ r, dlsdSort hash data = some r) ∧
      (dlsdPasses data.length - 1) + 1 =
        (rustIlog2 (rustNextPow2 data.length) + 9) / 10 ∧
      1 ≤ dlsdPasses data.length ∧ dlsdPasses data.length ≤ 6 := by
  have hlog_ge : 1 ≤ rustIlog2 (rustNextPow2 data.length) := by
    have h2 : 2 ≤ rustNextPow2 data.length := by
      have := rustNextPow2_ge data.length
        (le_trans hb (Nat.pow_le_pow_right (by norm_num) (by norm_num)))
      omega
    exact ilog2go_pos (by norm_num) h2
  have hlog_le : rustIlog2 (rustNextPow2 data.length) ≤ 60 := by
    have hnp := @rustNextPow2_le_pow data.length 60 hb (by norm_num)
    apply ilog2go_le
    calc rustNextPow2 data.length ≤ 2 ^ 60 := hnp
    _ < 2 ^ (60 + 1) := by norm_num
  have hpasses : dlsdPasses data.length =
      (rustIlog2 (rustNextPow2 data.length) + 9) / 10 := by
    unfold dlsdPasses LG_MAX_DIVERSION_SIZE DO_INSERTION_SORT LG_RADIX
    simp
  have h1 : 1 ≤ dlsdPasses data.length := by rw [hpasses]; omega
  have h6 : dlsdPasses data.length ≤ 6 := by rw [hpasses]; omega
  refine ⟨?_, by omega, h1, h6⟩
  unfold dlsdSort
  simp only [h4]
  rw [if_neg (by simp [CHUNK_SIZE, h4]), if_neg (by omega), if_neg (by omega)]
  exact ⟨_, rfl⟩

/-- Witness for the amended C6 at the concrete input `[5, 3, 2, 1]`. -/
theorem claim_C6_pass_count_witness :
    (∃ r, dlsdSort noopHash [5, 3, 2, 1] = some r) ∧
      (dlsdPasses (List.length [5, 3, 2, 1]) - 1) + 1 =
        (rustIlog2 (rustNextPow2 (List.length [5, 3, 2, 1])) + 9) / 10 ∧
      1 ≤ dlsdPasses (List.length [5, 3, 2, 1]) ∧
      dlsdPasses (List.length [5, 3, 2, 1]) ≤ 6 := by
  have := claim_C6_pass_count noopHash [5, 3, 2, 1] (by decide) (by decide)
    (by norm_num)
  simpa using this

/-! ### Probe-sequence analysis of `U64HashSet::insert`

The nested probe loops of `insert` are characterised as a linear scan over the
list of table positions they visit, which the correctness arguments for the
termination claim and the reachable-state invariant are then stated over. -/

/-- Value stored at table position `(bucket index, slot index)`. -/
def slotVal (table : List (List Nat)) (p : Nat × Nat) : Nat :=
  (table.getD p.1 []).getD p.2 0

/-- Linearised probe: visit positions in order, insert at the first empty
slot, or stop without writing at the first slot already holding the key. -/
def scanPositions (table : List (List Nat)) (key : Nat) :
    List (Nat × Nat) → Option (List (List Nat) × Bool)
  | [] => none
  | p :: rest =>
    if slotVal table p = 0 then
      some (table.set p.1 ((table.getD p.1 []).set p.2 key), true)
    else if slotVal table p = key then some (table, false)
    else scanPositions table key rest

/-- The table positions probed by `insert`, in probe order. -/
def probePositions (numBuckets start offset fuel : Nat) : List (Nat × Nat) :=
  (List.range fuel).flatMap (fun t =>
    (List.range BUCKET_SIZE).map (fun i =>
      ((start + t) &&& (numBuckets - 1), (i + offset) % BUCKET_SIZE)))

lemma scanPositions_cons (table : List (List Nat)) (key : Nat) (p : Nat × Nat)
    (rest : List (Nat × Nat)) :
    scanPositions table key (p :: rest) =
      if slotVal table p = 0 then
        some (table.set p.1 ((table.getD p.1 []).set p.2 key), true)
      else if slotVal table p = key then some (table, false)
      else scanPositions table key rest := rfl

lemma probeSlots_succ (bucket : List Nat) (offset key f i : Nat) :
    probeSlots bucket offset key (f + 1) i =
      if bucket.getD ((i + offset) % BUCKET_SIZE) 0 = 0 then
        some (ProbeHit.empty ((i + offset) % BUCKET_SIZE))
      else if bucket.getD ((i + offset) % BUCKET_SIZE) 0 = key then
        some ProbeHit.matched
      else probeSlots bucket offset key f (i + 1) := rfl

lemma insertGo_succ (table : List (List Nat)) (key offset f start : Nat) :
    insertGo table key offset (f + 1) start =
      match probeSlots (table.getD (start &&& (table.length - 1)) [])
          offset key BUCKET_SIZE 0 with
      | some (ProbeHit.empty slot) =>
          some (table.set (start &&& (table.length - 1))
            ((table.getD (start &&& (table.length - 1)) []).set slot key), true)
      | some ProbeHit.matched => some (table, false)
      | none => insertGo table key offset f (start + 1) := rfl

lemma insertO_nonzero (hash : Nat → Nat) (s : U64HashSet) (k : Nat) (hk : k ≠ 0) :
    insertO hash s k =
      match insertGo s.table k (hash k >>> 61) s.table.length (hash k) with
      | some (t, inc) =>
          some { s with table := t, len := s.len + (if inc then 1 else 0) }
      | none => none := by
  unfold insertO
  rw [if_neg hk]

lemma probeSlots_eq_scan (table : List (List Nat)) (bi offset key : Nat)
    (rest : List (Nat × Nat)) :
    ∀ fuel i,
      scanPositions table key
        (((List.range fuel).map (fun t => (bi, (i + t + offset) % BUCKET_SIZE))) ++ rest)
      = match probeSlots (table.getD bi []) offset key fuel i with
        | some (ProbeHit.empty slot) =>
            some (table.set bi ((table.getD bi []).set slot key), true)
        | some ProbeHit.matched => some (table, false)
        | none => scanPositions table key rest := by
  intro fuel
  induction fuel with
  | zero => intro i; simp [probeSlots]
  | succ f ih =>
    intro i
    rw [List.range_succ_eq_map, List.map_cons, List.map_map, List.cons_append]
    have hfun : ((fun t => (bi, (i + t + offset) % BUCKET_SIZE)) ∘ Nat.succ)
        = fun t => (bi, (i + 1 + t + offset) % BUCKET_SIZE) := by
      funext t
      simp only [Function.comp_apply]
      congr 2
      omega
    rw [hfun, scanPositions_cons, probeSlots_succ]
    have hv : slotVal table (bi, (i + 0 + offset) % BUCKET_SIZE)
        = (table.getD bi []).getD ((i + offset) % BUCKET_SIZE) 0 := rfl
    rw [hv]
    split_ifs with h0 hk
    · rfl
    · rfl
    · exact ih (i + 1)

lemma insertGo_eq_scan (table : List (List Nat)) (key offset : Nat) :
    ∀ fuel start,
      insertGo table key offset fuel start
        = scanPositions table key
            (probePositions table.length start offset fuel) := by
  intro fuel
  induction fuel with
  | zero => intro start; simp [insertGo, probePositions, scanPositions]
  | succ f ih =>
    intro start
    rw [insertGo_succ]
    rw [probePositions, List.range_succ_eq_map, List.flatMap_cons, List.flatMap_map]
    have hinner : (List.range BUCKET_SIZE).map (fun i =>
        ((start + 0) &&& (table.length - 1), (i + offset) % BUCKET_SIZE))
      = (List.range BUCKET_SIZE).map
          (fun t => (start &&& (table.length - 1), (0 + t + offset) % BUCKET_SIZE)) := by
      apply List.map_congr_left
      intro t _
      simp
    have houter : (fun t => (List.range BUCKET_SIZE).map (fun i =>
        ((start + Nat.succ t) &&& (table.length - 1), (i + offset) % BUCKET_SIZE)))
      = fun t => (List.range BUCKET_SIZE).map (fun i =>
        ((start + 1 + t) &&& (table.length - 1), (i + offset) % BUCKET_SIZE)) := by
      funext t
      apply List.map_congr_left
      intro i _
      congr 2
      omega
    rw [hinner, houter]
    have hscan := probeSlots_eq_scan table (start &&& (table.length - 1)) offset key
      ((List.range f).flatMap (fun t => (List.range BUCKET_SIZE).map (fun i =>
        ((start + 1 + t) &&& (table.length - 1), (i + offset) % BUCKET_SIZE))))
      BUCKET_SIZE 0
    rw [hscan]
    have hrest : ((List.range f).flatMap (fun t => (List.range BUCKET_SIZE).map (fun i =>
        ((start + 1 + t) &&& (table.length - 1), (i + offset) % BUCKET_SIZE))))
      = probePositions table.length (start + 1) offset f := rfl
    rw [hrest, ← ih (start + 1)]

/-- A probed position is a miss for `key` when its slot is neither empty nor
already holding `key`. -/
def missAt (table : List (List Nat)) (key : Nat) (p : Nat × Nat) : Prop :=
  slotVal table p ≠ 0 ∧ slotVal table p ≠ key

lemma scan_none_iff (table : List (List Nat)) (key : Nat) (l : List (Nat × Nat)) :
    scanPositions table key l = none ↔ ∀ p ∈ l, missAt table key p := by
  induction l with
  | nil => simp [scanPositions]
  | cons p rest ih =>
    rw [scanPositions_cons]
    by_cases h0 : slotVal table p = 0
    · rw [if_pos h0]
      simp only [reduceCtorEq, false_iff]
      intro hall
      exact (hall p (by simp)).1 h0
    · rw [if_neg h0]
      by_cases hk : slotVal table p = key
      · rw [if_pos hk]
        simp only [reduceCtorEq, false_iff]
        intro hall
        exact (hall p (by simp)).2 hk
      · rw [if_neg hk, ih]
        constructor
        · intro h q hq
          rcases List.mem_cons.mp hq with rfl | hq'
          · exact ⟨h0, hk⟩
          · exact h q hq'
        · intro h q hq
          exact h q (List.mem_cons_of_mem p hq)

lemma scan_some_decompose (table : List (List Nat)) (key : Nat)
    (l : List (Nat × Nat)) (res : List (List Nat) × Bool)
    (h : scanPositions table key l = some res) :
    ∃ pre p post, l = pre ++ p :: post ∧ (∀ q ∈ pre, missAt table key q) ∧
      ((slotVal table p = 0 ∧
        res = (table.set p.1 ((table.getD p.1 []).set p.2 key), true)) ∨
       (slotVal table p = key ∧ slotVal table p ≠ 0 ∧ res = (table, false))) := by
  induction l with
  | nil => simp [scanPositions] at h
  | cons p rest ih =>
    rw [scanPositions_cons] at h
    by_cases h0 : slotVal table p = 0
    · rw [if_pos h0] at h
      refine ⟨[], p, rest, by simp, by simp, Or.inl ⟨h0, ?_⟩⟩
      exact (Option.some_injective _ h).symm
    · rw [if_neg h0] at h
      by_cases hk : slotVal table p = key
      · rw [if_pos hk] at h
        refine ⟨[], p, rest, by simp, by simp, Or.inr ⟨hk, h0, ?_⟩⟩
        exact (Option.some_injective _ h).symm
      · rw [if_neg hk] at h
        obtain ⟨pre, q, post, hl, hpre, hres⟩ := ih h
        refine ⟨p :: pre, q, post, by rw [hl]; rfl, ?_, hres⟩
        intro r hr
        rcases List.mem_cons.mp hr with rfl | hr'
        · exact ⟨h0, hk⟩
        · exact hpre r hr'

lemma scan_append_miss (table : List (List Nat)) (key : Nat)
    (pre l : List (Nat × Nat)) (hpre : ∀ q ∈ pre, missAt table key q) :
    scanPositions table key (pre ++ l) = scanPositions table key l := by
  induction pre with
  | nil => rfl
  | cons p rest ih =>
    have hp := hpre p (by simp)
    rw [List.cons_append, scanPositions_cons, if_neg hp.1, if_neg hp.2]
    exact ih (fun q hq => hpre q (List.mem_cons_of_mem p hq))

lemma scan_cons_key (table : List (List Nat)) (key : Nat) (p : Nat × Nat)
    (l : List (Nat × Nat)) (hk : slotVal table p = key) (h0 : slotVal table p ≠ 0) :
    scanPositions table key (p :: l) = some (table, false) := by
  rw [scanPositions_cons, if_neg h0, if_pos hk]

/-- Every residue below `N` is hit by `N` consecutive values reduced mod `N`. -/
lemma mod_cycle (N start b : Nat) (hb : b < N) :
    ∃ t, t < N ∧ (start + t) % N = b := by
  have hN : 0 < N := lt_of_le_of_lt (Nat.zero_le b) hb
  have hs : start % N < N := Nat.mod_lt start hN
  by_cases hle : start % N ≤ b
  · refine ⟨b - start % N, by omega, ?_⟩
    rw [← Nat.mod_add_mod]
    have heq : start % N + (b - start % N) = b := by omega
    rw [heq, Nat.mod_eq_of_lt hb]
  · refine ⟨b + N - start % N, by omega, ?_⟩
    rw [← Nat.mod_add_mod]
    have heq : start % N + (b + N - start % N) = b + N := by omega
    rw [heq, Nat.add_mod_right, Nat.mod_eq_of_lt hb]

lemma probePositions_mem (numBuckets start offset : Nat) (hpos : 0 < numBuckets)
    (β σ : Nat) (hβ : β < numBuckets) (hσ : σ < BUCKET_SIZE)
    (hpow : ∃ t, numBuckets = 2 ^ t) :
    (β, σ) ∈ probePositions numBuckets start offset numBuckets := by
  obtain ⟨k, hk⟩ := hpow
  subst hk
  obtain ⟨t, ht, htmod⟩ := mod_cycle (2 ^ k) start β hβ
  obtain ⟨i, hi, himod⟩ := mod_cycle BUCKET_SIZE offset σ hσ
  unfold probePositions
  rw [List.mem_flatMap]
  refine ⟨t, List.mem_range.mpr ht, ?_⟩
  rw [List.mem_map]
  refine ⟨i, List.mem_range.mpr hi, ?_⟩
  rw [Nat.and_pow_two_sub_one_eq_mod, htmod]
  have hcomm : i + offset = offset + i := by omega
  rw [hcomm, himod]

lemma probePositions_bounds (numBuckets start offset fuel : Nat)
    (hpow : ∃ t, numBuckets = 2 ^ t) (p : Nat × Nat)
    (hp : p ∈ probePositions numBuckets start offset fuel) :
    p.1 < numBuckets ∧ p.2 < BUCKET_SIZE := by
  obtain ⟨k, hk⟩ := hpow
  subst hk
  unfold probePositions at hp
  rw [List.mem_flatMap] at hp
  obtain ⟨t, _, hp⟩ := hp
  rw [List.mem_map] at hp
  obtain ⟨i, _, hpeq⟩ := hp
  subst hpeq
  constructor
  · rw [Nat.and_pow_two_sub_one_eq_mod]
    exact Nat.mod_lt _ (Nat.pos_pow_of_pos k (by norm_num))
  · exact Nat.mod_lt _ (by norm_num [BUCKET_SIZE])

/-- Claim C9: with the table shape produced by `with_capacity` (a power of two
of 8-slot buckets), `insert` terminates exactly when the key is 0, or the key
is already stored in some slot, or some slot of the table holds 0; on a
nonzero absent key with no empty slot the probe loop runs forever (`none`). -/
theorem claim_C9_insert_termination (hash : Nat → Nat) (s : U64HashSet) (k : Nat)
    (hpow : ∃ t, s.table.length = 2 ^ t)
    (hbuckets : ∀ b ∈ s.table, b.length = BUCKET_SIZE) :
    (insertO hash s k).isSome ↔
      (k = 0 ∨ (∃ b ∈ s.table, k ∈ b) ∨ (∃ b ∈ s.table, (0 : Nat) ∈ b)) := by
  by_cases hk : k = 0
  · subst hk
    simp [insertO]
  · have hNpos : 0 < s.table.length := by
      obtain ⟨t, ht⟩ := hpow
      rw [ht]
      exact Nat.pos_pow_of_pos t (by norm_num)
    rw [insertO_nonzero hash s k hk, insertGo_eq_scan]
    constructor
    · intro hsome
      cases hscan : scanPositions s.table k
          (probePositions s.table.length (hash k) (hash k >>> 61) s.table.length) with
      | none => rw [hscan] at hsome; simp at hsome
      | some res =>
        obtain ⟨pre, p, post, hl, _, hres⟩ := scan_some_decompose _ _ _ _ hscan
        have hpmem : p ∈ probePositions s.table.length (hash k) (hash k >>> 61)
            s.table.length := by
          rw [hl]
          simp
        obtain ⟨hp1, hp2⟩ := probePositions_bounds _ _ _ _ hpow p hpmem
        have hbmem : s.table.getD p.1 [] ∈ s.table := by
          rw [List.getD_eq_getElem _ _ hp1]
          exact List.getElem_mem hp1
        have hblen : (s.table.getD p.1 []).length = BUCKET_SIZE :=
          hbuckets _ hbmem
        have hvmem : slotVal s.table p ∈ s.table.getD p.1 [] := by
          unfold slotVal
          have h2 : p.2 < (s.table.getD p.1 []).length := by
            rw [hblen]
            exact hp2
          rw [List.getD_eq_getElem (s.table.getD p.1 []) 0 h2]
          exact List.getElem_mem h2
        rcases hres with ⟨h0, _⟩ | ⟨hkk, _, _⟩
        · right; right
          exact ⟨_, hbmem, h0 ▸ hvmem⟩
        · right; left
          exact ⟨_, hbmem, hkk ▸ hvmem⟩
    · intro hmem
      have hexists : ∃ p ∈ probePositions s.table.length (hash k) (hash k >>> 61)
          s.table.length, ¬ missAt s.table k p := by
        rcases hmem with hk0 | ⟨b, hb, hvb⟩ | ⟨b, hb, hvb⟩
        · exact absurd hk0 hk
        all_goals {
          obtain ⟨β, hβ, hbeq⟩ := List.mem_iff_getElem.mp hb
          subst hbeq
          obtain ⟨σ, hσ, hval⟩ := List.mem_iff_getElem.mp hvb
          have hσ8 : σ < BUCKET_SIZE := by
            have := hbuckets _ (List.getElem_mem hβ)
            omega
          refine ⟨(β, σ), probePositions_mem _ _ _ hNpos β σ hβ hσ8 hpow, ?_⟩
          have hval2 : slotVal s.table (β, σ) = s.table[β][σ] := by
            unfold slotVal
            rw [List.getD_eq_getElem _ _ hβ]
            exact List.getD_eq_getElem _ _ hσ
          unfold missAt
          rw [hval2, hval]
          tauto
        }
      cases hscan : scanPositions s.table k
          (probePositions s.table.length (hash k) (hash k >>> 61) s.table.length) with
      | none =>
        exfalso
        obtain ⟨p, hp, hmiss⟩ := hexists
        exact hmiss ((scan_none_iff _ _ _).mp hscan p hp)
      | some res =>
        obtain ⟨t, inc⟩ := res
        simp

/-! ### Reachable-state invariant of `U64HashSet` (claim C10) -/

/-- Number of table slots holding `k`. -/
def slotCount (table : List (List Nat)) (k : Nat) : Nat :=
  (table.map (fun b => b.count k)).sum

/-- Number of distinct nonzero keys in a list. -/
def distinctNZCount (ks : List Nat) : Nat :=
  ((ks.filter (fun k => k != 0)).toFinset).card

/-- The invariant maintained by every successful `insert`: buckets keep their
8-slot shape, every nonzero slot holds a previously inserted key, every
inserted nonzero key occupies exactly one slot, re-probing an inserted key is
a no-op, the `len` field counts the distinct nonzero keys plus one if 0 was
inserted (the double-count bug), and `has_zero` records whether 0 was
inserted.  `K` is the list of keys inserted so far. -/
structure HInv (hash : Nat → Nat) (K : List Nat) (s : U64HashSet) : Prop where
  buckets8 : ∀ b ∈ s.table, b.length = BUCKET_SIZE
  mem_ins : ∀ b ∈ s.table, ∀ v ∈ b, v ≠ 0 → v ∈ K
  uniq : ∀ m, m ≠ 0 → m ∈ K → slotCount s.table m = 1
  absent : ∀ m, m ≠ 0 → m ∉ K → slotCount s.table m = 0
  reprobe : ∀ m, m ≠ 0 → m ∈ K →
    insertGo s.table m (hash m >>> 61) s.table.length (hash m) = some (s.table, false)
  len_eq : s.len = distinctNZCount K + (if 0 ∈ K then 1 else 0)
  zero_flag : s.has_zero = decide (0 ∈ K)

lemma le_sum_of_mem {l : List Nat} {a : Nat} (h : a ∈ l) : a ≤ l.sum := by
  induction l with
  | nil => simp at h
  | cons b r ih =>
    rw [List.sum_cons]
    rcases List.mem_cons.mp h with rfl | h2
    · omega
    · have := ih h2
      omega

lemma slotCount_pos (table : List (List Nat)) (b : List Nat) (hb : b ∈ table)
    (v : Nat) (hv : v ∈ b) : 0 < slotCount table v := by
  unfold slotCount
  have hmem : b.count v ∈ table.map (fun b => b.count v) :=
    List.mem_map.mpr ⟨b, hb, rfl⟩
  have hpos : 0 < b.count v := List.count_pos_iff.mpr hv
  have := le_sum_of_mem hmem
  omega

lemma sum_map_set (f : List Nat → Nat) :
    ∀ (table : List (List Nat)) (bi : Nat), bi < table.length → ∀ nb,
      ((table.set bi nb).map f).sum + f (table.getD bi [])
        = (table.map f).sum + f nb := by
  intro table
  induction table with
  | nil => intro bi h; simp at h
  | cons b rest ih =>
    intro bi h nb
    cases bi with
    | zero =>
      rw [List.set_cons_zero]
      simp only [List.map_cons, List.sum_cons, List.getD_cons_zero]
      omega
    | succ n =>
      rw [List.set_cons_succ]
      simp only [List.map_cons, List.sum_cons, List.getD_cons_succ]
      have := ih n (by simpa using h) nb
      omega

lemma slotCount_set (table : List (List Nat)) (bi sl key : Nat)
    (hbi : bi < table.length) (hsl : sl < (table.getD bi []).length)
    (hold : (table.getD bi []).getD sl 0 = 0) (m : Nat) (hm : m ≠ 0) :
    slotCount (table.set bi ((table.getD bi []).set sl key)) m
      = slotCount table m + (if key = m then 1 else 0) := by
  have hget : (table.getD bi [])[sl] = 0 := by
    rw [← List.getD_eq_getElem (table.getD bi []) 0 hsl]
    exact hold
  have hcount := List.count_set key m (table.getD bi []) sl hsl
  rw [hget] at hcount
  have hzm : ((0 : Nat) == m) = false := beq_eq_false_iff_ne.mpr (by omega)
  rw [hzm] at hcount
  have hcount2 : ((table.getD bi []).set sl key).count m
      = (table.getD bi []).count m + (if key = m then 1 else 0) := by
    rw [hcount]
    by_cases hkm : key = m
    · simp [hkm]
    · simp [hkm]
  have hsum := sum_map_set (fun b => b.count m) table bi hbi
    ((table.getD bi []).set sl key)
  unfold slotCount
  by_cases hkm : key = m
  · rw [if_pos hkm]
    rw [if_pos hkm] at hcount2
    omega
  · rw [if_neg hkm]
    rw [if_neg hkm] at hcount2
    omega

lemma slotVal_pair (table : List (List Nat)) (a b : Nat) :
    slotVal table (a, b) = (table.getD a []).getD b 0 := rfl

lemma slotVal_set_eq (table : List (List Nat)) (bi sl key : Nat)
    (hbi : bi < table.length) (hsl : sl < (table.getD bi []).length) :
    slotVal (table.set bi ((table.getD bi []).set sl key)) (bi, sl) = key := by
  rw [slotVal_pair]
  have h1 : (table.set bi ((table.getD bi []).set sl key)).getD bi []
      = (table.getD bi []).set sl key := by
    rw [List.getD_eq_getElem?_getD, List.getElem?_set_self hbi, Option.getD_some]
  rw [h1, List.getD_eq_getElem?_getD, List.getElem?_set_self hsl,
    Option.getD_some]

lemma slotVal_set_ne (table : List (List Nat)) (bi sl key : Nat)
    (q : Nat × Nat) (hne : q ≠ (bi, sl)) :
    slotVal (table.set bi ((table.getD bi []).set sl key)) q = slotVal table q := by
  obtain ⟨qa, qb⟩ := q
  rw [slotVal_pair, slotVal_pair]
  by_cases h1 : qa = bi
  · subst h1
    have h2 : qb ≠ sl := by
      intro h
      exact hne (by rw [h])
    by_cases hqa : qa < table.length
    · have hga : (table.set qa ((table.getD qa []).set sl key)).getD qa []
          = (table.getD qa []).set sl key := by
        rw [List.getD_eq_getElem?_getD, List.getElem?_set_self hqa, Option.getD_some]
      rw [hga, List.getD_eq_getElem?_getD, List.getElem?_set_ne (by omega),
        ← List.getD_eq_getElem?_getD]
    · have hset : (table.set qa ((table.getD qa []).set sl key)) = table := by
        apply List.set_eq_of_length_le
        omega
      rw [hset]
  · have hga : (table.set bi ((table.getD bi []).set sl key)).getD qa []
        = table.getD qa [] := by
      rw [List.getD_eq_getElem?_getD, List.getElem?_set_ne (by omega),
        ← List.getD_eq_getElem?_getD]
    rw [hga]

lemma distinctNZCount_append_zero (K : List Nat) :
    distinctNZCount (K ++ [0]) = distinctNZCount K := by
  unfold distinctNZCount
  rw [List.filter_append]
  have hf : List.filter (fun k => k != 0) [0] = [] := rfl
  rw [hf, List.append_nil]

lemma distinctNZCount_append_mem (K : List Nat) (k : Nat) (hk : k ∈ K) :
    distinctNZCount (K ++ [k]) = distinctNZCount K := by
  unfold distinctNZCount
  rw [List.filter_append, List.toFinset_append]
  by_cases hk0 : k = 0
  · subst hk0
    simp
  · have : List.filter (fun k => k != 0) [k] = [k] := by
      simp [hk0]
    rw [this]
    have hmem : k ∈ (List.filter (fun k => k != 0) K).toFinset := by
      rw [List.mem_toFinset, List.mem_filter]
      exact ⟨hk, by simp [hk0]⟩
    have h2 : [k].toFinset = {k} := by simp
    rw [h2, Finset.union_eq_left.mpr (Finset.singleton_subset_iff.mpr hmem)]

lemma distinctNZCount_append_new (K : List Nat) (k : Nat) (hk : k ≠ 0)
    (hnk : k ∉ K) : distinctNZCount (K ++ [k]) = distinctNZCount K + 1 := by
  unfold distinctNZCount
  rw [List.filter_append]
  have hfk : List.filter (fun k => k != 0) [k] = [k] := by simp [hk]
  rw [hfk, List.toFinset_append]
  have h1 : [k].toFinset = {k} := by simp
  rw [h1, Finset.union_comm]
  have hmem : k ∉ (List.filter (fun k => k != 0) K).toFinset := by
    rw [List.mem_toFinset, List.mem_filter]
    intro h
    exact hnk h.1
  rw [← Finset.insert_eq, Finset.card_insert_of_not_mem hmem]

lemma mem_append_single {m k : Nat} {K : List Nat} :
    m ∈ K ++ [k] ↔ m ∈ K ∨ m = k := by
  simp

/-- Preservation of the invariant by one successful `insert`. -/
lemma HInv_insert (hash : Nat → Nat) (K : List Nat) (s s2 : U64HashSet) (k : Nat)
    (hInv : HInv hash K s) (h : insertO hash s k = some s2) :
    HInv hash (K ++ [k]) s2 := by
  by_cases hk : k = 0
  · subst hk
    have hs2 : s2 = { s with len := s.len + (if s.has_zero then 0 else 1), has_zero := true } := by
      unfold insertO at h
      rw [if_pos rfl] at h
      exact (Option.some_injective _ h).symm
    subst hs2
    refine ⟨hInv.buckets8, ?_, ?_, ?_, ?_, ?_, ?_⟩
    · intro b hb v hv hvne
      exact List.mem_append_left _ (hInv.mem_ins b hb v hv hvne)
    · intro m hm hmK
      rcases mem_append_single.mp hmK with h1 | h1
      · exact hInv.uniq m hm h1
      · exact absurd h1 hm
    · intro m hm hmK
      exact hInv.absent m hm (fun h1 => hmK (List.mem_append_left _ h1))
    · intro m hm hmK
      rcases mem_append_single.mp hmK with h1 | h1
      · exact hInv.reprobe m hm h1
      · exact absurd h1 hm
    · show s.len + (if s.has_zero then 0 else 1) = _
      have hz := hInv.zero_flag
      have hl := hInv.len_eq
      rw [distinctNZCount_append_zero]
      have h0mem : (0 : Nat) ∈ K ++ [0] := by simp
      rw [if_pos h0mem]
      by_cases h0K : (0 : Nat) ∈ K
      · rw [if_pos h0K] at hl
        have hz2 : s.has_zero = true := by
          rw [hz, decide_eq_true_eq]
          exact h0K
        rw [hz2, if_pos rfl]
        omega
      · rw [if_neg h0K] at hl
        have hz2 : s.has_zero = false := by
          rw [hz]
          exact decide_eq_false h0K
        rw [hz2, if_neg (by simp)]
        omega
    · show true = decide ((0 : Nat) ∈ K ++ [0])
      simp
  · rw [insertO_nonzero hash s k hk] at h
    cases hgo : insertGo s.table k (hash k >>> 61) s.table.length (hash k) with
    | none => rw [hgo] at h; simp at h
    | some res =>
      obtain ⟨t, inc⟩ := res
      rw [hgo] at h
      have hs2 : s2 = { s with table := t, len := s.len + (if inc then 1 else 0) } := (Option.some_injective _ h).symm
      subst hs2
      rw [insertGo_eq_scan] at hgo
      have hz01 : ((0 : Nat) ∈ K ++ [k]) ↔ ((0 : Nat) ∈ K) := by
        rw [mem_append_single]
        constructor
        · intro hh
          rcases hh with hh | hh
          · exact hh
          · exact absurd hh.symm hk
        · exact Or.inl
      by_cases hkK : k ∈ K
      · have hre := hInv.reprobe k hk hkK
        rw [insertGo_eq_scan] at hre
        rw [hre] at hgo
        have hti : s.table = t ∧ false = inc := by
          have hinj := Option.some_injective _ hgo
          exact ⟨congrArg Prod.fst hinj, congrArg Prod.snd hinj⟩
        obtain ⟨ht, hinc⟩ := hti
        subst ht
        subst hinc
        refine ⟨hInv.buckets8, ?_, ?_, ?_, ?_, ?_, ?_⟩
        · intro b hb v hv hvne
          exact List.mem_append_left _ (hInv.mem_ins b hb v hv hvne)
        · intro m hm hmK
          rcases mem_append_single.mp hmK with h1 | h1
          · exact hInv.uniq m hm h1
          · subst h1
            exact hInv.uniq m hm hkK
        · intro m hm hmK
          exact hInv.absent m hm (fun h1 => hmK (List.mem_append_left _ h1))
        · intro m hm hmK
          rcases mem_append_single.mp hmK with h1 | h1
          · exact hInv.reprobe m hm h1
          · subst h1
            exact hInv.reprobe m hm hkK
        · show s.len + (if false then 1 else 0) = _
          rw [if_neg (by simp), distinctNZCount_append_mem K k hkK]
          have hl := hInv.len_eq
          by_cases h0K : (0 : Nat) ∈ K
          · rw [if_pos (hz01.mpr h0K)]
            rw [if_pos h0K] at hl
            omega
          · rw [if_neg (fun hh => h0K (hz01.mp hh))]
            rw [if_neg h0K] at hl
            omega
        · show s.has_zero = decide ((0 : Nat) ∈ K ++ [k])
          rw [hInv.zero_flag]
          by_cases h0K : (0 : Nat) ∈ K
          · rw [decide_eq_true h0K, decide_eq_true (hz01.mpr h0K)]
          · have hno : ¬ ((0 : Nat) ∈ K ++ [k]) := fun hh => h0K (hz01.mp hh)
            rw [decide_eq_false h0K, decide_eq_false hno]
      · -- k is absent from the table
        have habs := hInv.absent k hk hkK
        have hNpos : 0 < s.table.length := by
          by_contra hc
          have hz : s.table.length = 0 := by omega
          rw [hz] at hgo
          simp [probePositions, scanPositions] at hgo
        obtain ⟨pre, p, post, hl, hpre, hres⟩ := scan_some_decompose _ _ _ _ hgo
        have hp1 : p.1 < s.table.length := by
          have hpmem : p ∈ probePositions s.table.length (hash k) (hash k >>> 61)
              s.table.length := by
            rw [hl]; simp
          unfold probePositions at hpmem
          rw [List.mem_flatMap] at hpmem
          obtain ⟨tt, _, hpmem⟩ := hpmem
          rw [List.mem_map] at hpmem
          obtain ⟨i, _, hpeq⟩ := hpmem
          have := Nat.and_le_right (n := hash k + tt) (m := s.table.length - 1)
          rw [← hpeq]
          simp only []
          omega
        have hp2 : p.2 < BUCKET_SIZE := by
          have hpmem : p ∈ probePositions s.table.length (hash k) (hash k >>> 61)
              s.table.length := by
            rw [hl]; simp
          unfold probePositions at hpmem
          rw [List.mem_flatMap] at hpmem
          obtain ⟨tt, _, hpmem⟩ := hpmem
          rw [List.mem_map] at hpmem
          obtain ⟨i, _, hpeq⟩ := hpmem
          rw [← hpeq]
          exact Nat.mod_lt _ (by norm_num [BUCKET_SIZE])
        have hbmem : s.table.getD p.1 [] ∈ s.table := by
          rw [List.getD_eq_getElem _ _ hp1]
          exact List.getElem_mem hp1
        have hblen : (s.table.getD p.1 []).length = BUCKET_SIZE :=
          hInv.buckets8 _ hbmem
        have hsl : p.2 < (s.table.getD p.1 []).length := by omega
        rcases hres with ⟨h0, hres⟩ | ⟨hkk, hk0, hres⟩
        swap
        · -- a slot already holds k: contradicts absence
          exfalso
          have hvmem : slotVal s.table p ∈ s.table.getD p.1 [] := by
            rw [slotVal]
            have h2 := hsl
            rw [List.getD_eq_getElem (s.table.getD p.1 []) 0 h2]
            exact List.getElem_mem h2
          rw [hkk] at hvmem
          have := slotCount_pos s.table _ hbmem k hvmem
          omega
        · -- p is the first empty slot: the key is written there
          have hti : t = s.table.set p.1 ((s.table.getD p.1 []).set p.2 k)
              ∧ inc = true := by
            have h1 := congrArg Prod.fst hres
            have h2 := congrArg Prod.snd hres
            exact ⟨h1, h2⟩
          obtain ⟨ht, hinc⟩ := hti
          subst ht
          subst hinc
          have hold0 : (s.table.getD p.1 []).getD p.2 0 = 0 := h0
          have hval_eq := slotVal_set_eq s.table p.1 p.2 k hp1 hsl
          have hlen_t : (s.table.set p.1 ((s.table.getD p.1 []).set p.2 k)).length
              = s.table.length := List.length_set s.table p.1 _
          refine ⟨?_, ?_, ?_, ?_, ?_, ?_, ?_⟩
          · intro b hb
            rcases List.mem_or_eq_of_mem_set hb with hb1 | hb1
            · exact hInv.buckets8 b hb1
            · rw [hb1, List.length_set]
              exact hblen
          · intro b hb v hv hvne
            rcases List.mem_or_eq_of_mem_set hb with hb1 | hb1
            · exact List.mem_append_left _ (hInv.mem_ins b hb1 v hv hvne)
            · subst hb1
              rcases List.mem_or_eq_of_mem_set hv with hv1 | hv1
              · exact List.mem_append_left _
                  (hInv.mem_ins _ hbmem v hv1 hvne)
              · subst hv1
                exact List.mem_append_right _ (by simp)
          · intro m hm hmK
            rw [slotCount_set s.table p.1 p.2 k hp1 hsl hold0 m hm]
            rcases mem_append_single.mp hmK with h1 | h1
            · rw [hInv.uniq m hm h1, if_neg (fun hh => hkK (by rw [hh]; exact h1))]
            · subst h1
              rw [habs, if_pos rfl]
          · intro m hm hmK
            rw [slotCount_set s.table p.1 p.2 k hp1 hsl hold0 m hm]
            have hmk : k ≠ m := fun hh =>
              hmK (List.mem_append_right _ (by simp [hh]))
            rw [if_neg hmk, hInv.absent m hm
              (fun h1 => hmK (List.mem_append_left _ h1))]
          · intro m hm hmK
            rw [insertGo_eq_scan, List.length_set]
            rcases mem_append_single.mp hmK with h1 | h1
            · -- an older key: its probe is unchanged
              have hre := hInv.reprobe m hm h1
              rw [insertGo_eq_scan] at hre
              obtain ⟨pre2, p2, post2, hl2, hpre2, hres2⟩ :=
                scan_some_decompose _ _ _ _ hre
              rcases hres2 with ⟨_, hres2⟩ | ⟨hkk2, hk02, _⟩
              · exfalso
                have hsnd := congrArg Prod.snd hres2
                simp at hsnd
              · have hp2ne : p2 ≠ p := by
                  intro hh
                  rw [hh] at hk02
                  exact hk02 h0
                have hpre2sub : ∀ q ∈ pre2,
                    missAt (s.table.set p.1 ((s.table.getD p.1 []).set p.2 k)) m q := by
                  intro q hq
                  have hmq := hpre2 q hq
                  by_cases hqp : q = p
                  · subst hqp
                    refine ⟨?_, ?_⟩
                    · rw [hval_eq]
                      exact hk
                    · rw [hval_eq]
                      intro hh
                      exact hkK (by rw [hh]; exact h1)
                  · exact ⟨by rw [slotVal_set_ne _ _ _ _ _ hqp]; exact hmq.1,
                      by rw [slotVal_set_ne _ _ _ _ _ hqp]; exact hmq.2⟩
                rw [hl2, scan_append_miss _ _ _ _ hpre2sub]
                apply scan_cons_key
                · rw [slotVal_set_ne _ _ _ _ _ hp2ne]
                  exact hkk2
                · rw [slotVal_set_ne _ _ _ _ _ hp2ne]
                  exact hk02
            · -- the new key: its probe now ends at p with a match
              subst h1
              have hpresub : ∀ q ∈ pre,
                  missAt (s.table.set p.1 ((s.table.getD p.1 []).set p.2 m)) m q := by
                intro q hq
                have hmq := hpre q hq
                have hqp : q ≠ p := by
                  intro hh
                  rw [hh] at hmq
                  exact hmq.1 h0
                exact ⟨by rw [slotVal_set_ne _ _ _ _ _ hqp]; exact hmq.1,
                  by rw [slotVal_set_ne _ _ _ _ _ hqp]; exact hmq.2⟩
              rw [hl, scan_append_miss _ _ _ _ hpresub]
              apply scan_cons_key
              · exact hval_eq
              · rw [hval_eq]
                exact hm
          · show s.len + (if true then 1 else 0) = _
            rw [if_pos rfl, distinctNZCount_append_new K k hk hkK]
            have hl2 := hInv.len_eq
            by_cases h0K : (0 : Nat) ∈ K
            · rw [if_pos (hz01.mpr h0K)]
              rw [if_pos h0K] at hl2
              omega
            · rw [if_neg (fun hh => h0K (hz01.mp hh))]
              rw [if_neg h0K] at hl2
              omega
          · show s.has_zero = decide ((0 : Nat) ∈ K ++ [k])
            rw [hInv.zero_flag]
            by_cases h0K : (0 : Nat) ∈ K
            · rw [decide_eq_true h0K, decide_eq_true (hz01.mpr h0K)]
            · have hno : ¬ ((0 : Nat) ∈ K ++ [k]) := fun hh => h0K (hz01.mp hh)
              rw [decide_eq_false h0K, decide_eq_false hno]

/-- The invariant holds for the freshly constructed set. -/
lemma HInv_init (hash : Nat → Nat) (cap : Nat) : HInv hash [] (withCapacity cap) := by
  refine ⟨?_, ?_, ?_, ?_, ?_, ?_, ?_⟩
  · intro b hb
    unfold withCapacity at hb
    have hb2 := List.eq_of_mem_replicate hb
    rw [hb2]
    exact List.length_replicate _ _
  · intro b hb v hv hvne
    unfold withCapacity at hb
    have hb2 := List.eq_of_mem_replicate hb
    rw [hb2] at hv
    exact absurd (List.eq_of_mem_replicate hv) hvne
  · intro m _ hmem
    simp at hmem
  · intro m hm _
    unfold slotCount withCapacity
    simp only [List.map_replicate, List.count_replicate]
    have hzm : ((0 : Nat) == m) = false := beq_eq_false_iff_ne.mpr (by omega)
    rw [hzm]
    simp
  · intro m _ hmem
    simp at hmem
  · show 0 = distinctNZCount [] + _
    simp [distinctNZCount]
  · show false = decide ((0 : Nat) ∈ ([] : List Nat))
    simp

/-- The invariant is carried through any successful sequence of inserts. -/
lemma HInv_insertAll (hash : Nat → Nat) :
    ∀ (ks K : List Nat) (s s2 : U64HashSet),
      HInv hash K s → insertAll hash s ks = some s2 → HInv hash (K ++ ks) s2 := by
  intro ks
  induction ks with
  | nil =>
    intro K s s2 hInv h
    unfold insertAll at h
    simp only [List.foldlM_nil] at h
    have hss : s = s2 := by
      injection h
    rw [List.append_nil, ← hss]
    exact hInv
  | cons k ks ih =>
    intro K s s2 hInv h
    unfold insertAll at h
    rw [List.foldlM_cons] at h
    cases h1 : insertO hash s k with
    | none =>
      rw [h1] at h
      simp at h
    | some s1 =>
      rw [h1] at h
      simp only [Option.bind_eq_bind, Option.some_bind] at h
      rw [List.append_cons]
      exact ih (K ++ [k]) s1 s2 (HInv_insert hash K s s1 k hInv h1) h

/-- Claim C10 counterexample: after inserting only the key 0 (capacity 16),
the `len` field is already 1, while the number of distinct nonzero keys
inserted is 0 — the `len` field does not equal the distinct nonzero count. -/
theorem claim_C10_counterexample :
    (insertAll noopHash (withCapacity 16) [0]).map U64HashSet.len = some 1 ∧
      distinctNZCount [0] = 0 := by
  exact ⟨rfl, by decide⟩

/-- Claim C10 as amended: in every state reachable from `with_capacity` by a
sequence of successful `insert` calls, every nonzero slot holds a previously
inserted key, each inserted nonzero key occupies exactly one slot, `has_zero`
is set exactly when 0 was inserted — and the `len` field equals the number of
distinct nonzero keys inserted **plus one if 0 was ever inserted** (the
original claim's "len = distinct nonzero count" fails because the zero branch
of `insert` also increments `len`). -/
theorem claim_C10_invariant (hash : Nat → Nat) (cap : Nat) (ks : List Nat)
    (s : U64HashSet) (h : insertAll hash (withCapacity cap) ks = some s) :
    (∀ b ∈ s.table, ∀ v ∈ b, v ≠ 0 → v ∈ ks) ∧
    (∀ m ∈ ks, m ≠ 0 → slotCount s.table m = 1) ∧
    s.len = distinctNZCount ks + (if 0 ∈ ks then 1 else 0) ∧
    (s.has_zero = true ↔ 0 ∈ ks) := by
  have h0 := HInv_init hash cap
  have hinv := HInv_insertAll hash ks [] (withCapacity cap) s h0 h
  rw [List.nil_append] at hinv
  refine ⟨hinv.mem_ins, fun m hm hm0 => hinv.uniq m hm0 hm, hinv.len_eq, ?_⟩
  rw [hinv.zero_flag]
  simp

/-- Concrete reachable state used to witness the amended C10. -/
def c10state : U64HashSet :=
  ⟨[[0, 0, 0, 0, 0, 0, 0, 0], [5, 21, 0, 0, 0, 0, 0, 0],
    [0, 0, 0, 0, 0, 0, 0, 0], [0, 0, 0, 0, 0, 0, 0, 0]], 3, true⟩

/-- Witness for the amended C10: capacity 16, insertions `[0, 5, 21]` with the
Identity policy. -/
theorem claim_C10_invariant_witness :
    (∀ b ∈ c10state.table, ∀ v ∈ b, v ≠ 0 → v ∈ [0, 5, 21]) ∧
    (∀ m ∈ [0, 5, 21], m ≠ 0 → slotCount c10state.table m = 1) ∧
    c10state.len = distinctNZCount [0, 5, 21] +
      (if 0 ∈ [0, 5, 21] then 1 else 0) ∧
    (c10state.has_zero = true ↔ 0 ∈ [0, 5, 21]) :=
  claim_C10_invariant noopHash 16 [0, 5, 21] c10state rfl

/-- Concrete full-table state used to witness C9. -/
def c9state : U64HashSet := ⟨[[1, 2, 3, 4, 5, 6, 7, 9]], 8, false⟩

/-- Witness for C9: a 1-bucket table with every slot nonzero and the absent
key 42 — the characterisation applies and shows the insert spins forever. -/
theorem claim_C9_insert_termination_witness :
    (insertO noopHash c9state 42).isSome ↔
      (42 = 0 ∨ (∃ b ∈ c9state.table, 42 ∈ b) ∨
        (∃ b ∈ c9state.table, (0 : Nat) ∈ b)) :=
  claim_C9_insert_termination noopHash c9state 42 ⟨0, rfl⟩ (by decide)

/-! ### src/wide_merge_sort.rs

The two buffers (`data`/`aux`) and the `write_to_aux` toggle of the Rust code
only decide which physical buffer holds the result at each recursion depth;
in this functional model a call returns the sorted sequence directly, which is
the content of whichever buffer the Rust code designates.  The `merge256`
tournament is modelled one output element per `mergeStep`. -/

/-- `N`: the merge fan-in. -/
def NMERGE : Nat := 256

/-- `u64::MAX`, the head value substituted for an exhausted run. -/
def sentinel : Nat := U64MAX

/-- `data.sort_unstable()` — the external comparison-sort primitive used for
ranges of at most 1024 elements. -/
def sortUnstable (l : List Nat) : List Nat := l.mergeSort (fun a b => a ≤ b)

/-- State of the `merge256` loop: the 256 current head values (`keys`), the
undrawn tails of the 256 runs (the iterators `srcs`), and the loser table
(`loser_table[0]` is the current winner). -/
structure MState where
  keys : Nat → Nat
  rest : Nat → List Nat
  lt : Nat → Nat

/-- `srcs[i].next().copied().unwrap_or(u64::MAX)`: draw the next head of a
run, yielding the sentinel once the run is exhausted. -/
def draw (l : List Nat) : Nat × List Nat := (l.headD sentinel, l.tail)

/-- One line of the replay:
`(winner_i, winner, loser_i) = if winner < loser { keep } else { swap }`. -/
def replay (wi w li l : Nat) : Nat × Nat × Nat :=
  if w < l then (wi, w, li) else (li, l, wi)

/-- One step of the loser-table initialisation
(`for i in (1..N).rev()` body): compare the children's winners, record the
subtree winner in `winners[i]` and the loser in `loser_table[i]`. -/
def initStep (keys : Nat → Nat) (wl : (Nat → Nat) × (Nat → Nat)) (i : Nat) :
    (Nat → Nat) × (Nat → Nat) :=
  let w := wl.1
  let lt := wl.2
  let left_child := 2 * i
  let right_child := left_child + 1
  let winner := if keys (w left_child) < keys (w right_child) then left_child
    else right_child
  let w2 := Function.update w i (w winner)
  let loser := winner ^^^ 1
  (w2, Function.update lt i (w2 loser))

/-- The initialisation loop, processed from `i = 255` down to `i = 256 - n`;
`winners` starts as `i % N` (so the leaf half holds the run indices). -/
def initDown (keys : Nat → Nat) : Nat → ((Nat → Nat) × (Nat → Nat))
  | 0 => (fun i => i % NMERGE, fun _ => 0)
  | n + 1 => initStep keys (initDown keys n) (NMERGE - (n + 1))

/-- The initial loser table: run the loop for `i = 255, …, 1`, then
`loser_table[0] = winners[1]`. -/
def initLT (keys : Nat → Nat) : Nat → Nat :=
  let wl := initDown keys (NMERGE - 1)
  Function.update wl.2 0 (wl.1 1)

/-- One output element of `merge256`'s main loop: emit the winner's key, draw
its successor, then replay the new entrant against the 8 recorded losers on
the path from the winner's leaf to the root, rewriting the loser table. -/
def mergeStep (s : MState) : Nat × MState :=
  let winner_i := s.lt 0
  let out := s.keys winner_i
  let dr := draw (s.rest winner_i)
  let keys := Function.update s.keys winner_i dr.1
  let rest := Function.update s.rest winner_i dr.2
  let leaf_i := winner_i + NMERGE
  let loser7_i := s.lt (leaf_i >>> 1)
  let loser6_i := s.lt (leaf_i >>> 2)
  let loser5_i := s.lt (leaf_i >>> 3)
  let loser4_i := s.lt (leaf_i >>> 4)
  let loser3_i := s.lt (leaf_i >>> 5)
  let loser2_i := s.lt (leaf_i >>> 6)
  let loser1_i := s.lt (leaf_i >>> 7)
  let loser0_i := s.lt 1
  let loser7 := keys loser7_i
  let loser6 := keys loser6_i
  let loser5 := keys loser5_i
  let loser4 := keys loser4_i
  let loser3 := keys loser3_i
  let loser2 := keys loser2_i
  let loser1 := keys loser1_i
  let loser0 := keys loser0_i
  let a7 := replay winner_i (keys winner_i) loser7_i loser7
  let a6 := replay a7.1 a7.2.1 loser6_i loser6
  let a5 := replay a6.1 a6.2.1 loser5_i loser5
  let a4 := replay a5.1 a5.2.1 loser4_i loser4
  let a3 := replay a4.1 a4.2.1 loser3_i loser3
  let a2 := replay a3.1 a3.2.1 loser2_i loser2
  let a1 := replay a2.1 a2.2.1 loser1_i loser1
  let a0 := replay a1.1 a1.2.1 loser0_i loser0
  let lt := Function.update s.lt (leaf_i >>> 1) a7.2.2
  let lt := Function.update lt (leaf_i >>> 2) a6.2.2
  let lt := Function.update lt (leaf_i >>> 3) a5.2.2
  let lt := Function.update lt (leaf_i >>> 4) a4.2.2
  let lt := Function.update lt (leaf_i >>> 5) a3.2.2
  let lt := Function.update lt (leaf_i >>> 6) a2.2.2
  let lt := Function.update lt (leaf_i >>> 7) a1.2.2
  let lt := Function.update lt 1 a0.2.2
  let lt := Function.update lt 0 a0.1
  (out, ⟨keys, rest, lt⟩)

/-- The `for d in dst` loop: `n` emissions. -/
def mergeLoop (s : MState) : Nat → List Nat
  | 0 => []
  | n + 1 =>
    let os := mergeStep s
    os.1 :: mergeLoop os.2 n

/-- `merge256 srcs dst`: initialise the heads and loser table, then emit
`n = dst.len()` elements.  `srcs i` is run `i` (empty for `i ≥ 256`). -/
def merge256 (srcs : Nat → List Nat) (n : Nat) : List Nat :=
  let keys0 : Nat → Nat := fun i => (srcs i).headD sentinel
  let rest0 : Nat → List Nat := fun i => (srcs i).tail
  mergeLoop ⟨keys0, rest0, initLT keys0⟩ n

/-- Chunk `i` of `wide_merge_sort_recursive`: the index range
`(len * i) / N .. (len * (i + 1)) / N`. -/
def chunkOf (data : List Nat) (i : Nat) : List Nat :=
  (data.drop (data.length * i / NMERGE)).take
    (data.length * (i + 1) / NMERGE - data.length * i / NMERGE)

lemma chunkOf_length_lt (data : List Nat) (i : Nat) (h : 1024 < data.length) :
    (chunkOf data i).length < data.length := by
  unfold chunkOf
  have hlen := List.length_take
    (data.length * (i + 1) / NMERGE - data.length * i / NMERGE)
    (data.drop (data.length * i / NMERGE))
  rw [hlen]
  have hN : NMERGE = 256 := rfl
  have hb : data.length * (i + 1) / NMERGE - data.length * i / NMERGE
      ≤ data.length / NMERGE + 1 := by
    rw [hN]
    have h1 : data.length * (i + 1) = data.length * i + data.length := by ring
    have h2 : (data.length * i + data.length) / 256
        ≤ data.length * i / 256 + data.length / 256 + 1 := by
      omega
    omega
  have hsmall : data.length / NMERGE + 1 < data.length := by
    rw [hN]
    omega
  omega

/-- `wide_merge_sort_recursive`: ranges of at most 1024 elements delegate to
`sort_unstable`; larger ranges are split into 256 chunks, each sorted
recursively, and merged by the tournament tree.  (The `write_to_aux` buffer
toggling of the Rust code decides only where the result lives and is elided:
the function returns the result sequence.) -/
def wide_merge_sort_recursive (data : List Nat) : List Nat :=
  if h : data.length ≤ 1024 then sortUnstable data
  else
    let sorted_chunks := (List.range NMERGE).attach.map
      (fun t => wide_merge_sort_recursive (chunkOf data t.1))
    merge256 (fun i => sorted_chunks.getD i []) data.length
termination_by data.length
decreasing_by
  exact chunkOf_length_lt data _ (by omega)

/-- `wide_merge_sort`: small inputs are sorted directly; larger ones by the
256-way recursive merge (the single auxiliary allocation is elided). -/
def wide_merge_sort (data : List Nat) : List Nat :=
  if data.length ≤ 1024 then sortUnstable data
  else wide_merge_sort_recursive data

/-! ### Tournament-tree analysis of `merge256`

Nodes are indexed heap-style: the root is 1, node `v`'s children are `2v` and
`2v + 1`, and run `j`'s leaf is `256 + j`.  The ancestor of a leaf `L` at
depth-distance `m` is `L / 2 ^ m`. -/

lemma two_pow_pos (m : Nat) : 0 < 2 ^ m := Nat.pos_pow_of_pos m (by norm_num)

/-- Dyadic range of an ancestor of a leaf: for `L ∈ [2^8, 2^9)` and `m ≤ 8`,
`L / 2 ^ m ∈ [2^(8-m), 2^(9-m))`. -/
lemma ancestor_range {L : Nat} (m : Nat) (h1 : 2 ^ 8 ≤ L) (h2 : L < 2 ^ 9)
    (hm : m ≤ 8) : 2 ^ (8 - m) ≤ L / 2 ^ m ∧ L / 2 ^ m < 2 ^ (9 - m) := by
  constructor
  · rw [Nat.le_div_iff_mul_le (two_pow_pos m), ← Nat.pow_add]
    have he : 8 - m + m = 8 := by omega
    rw [he]
    exact h1
  · rw [Nat.div_lt_iff_lt_mul (two_pow_pos m), ← Nat.pow_add]
    have he : 9 - m + m = 9 := by omega
    rw [he]
    exact h2

/-- The depth of an ancestor of a 256-leaf is determined by its dyadic range. -/
lemma depth_eq {L m t : Nat} (h1 : 2 ^ 8 ≤ L) (h2 : L < 2 ^ 9)
    (hlo : 2 ^ t ≤ L / 2 ^ m) (hhi : L / 2 ^ m < 2 ^ (t + 1)) : t + m = 8 := by
  have hup : L < 2 ^ (t + 1) * 2 ^ m := (Nat.div_lt_iff_lt_mul (two_pow_pos m)).mp hhi
  have hdn : 2 ^ t * 2 ^ m ≤ L := by
    calc 2 ^ t * 2 ^ m ≤ L / 2 ^ m * 2 ^ m :=
        Nat.mul_le_mul_right _ hlo
    _ ≤ L := Nat.div_mul_le_self L (2 ^ m)
  rw [← Nat.pow_add] at hup hdn
  have hlt9 : t + m < 9 := by
    by_contra hc
    have : (2 : Nat) ^ 9 ≤ 2 ^ (t + m) := Nat.pow_le_pow_right (by norm_num) (by omega)
    omega
  have hge8 : 8 ≤ t + m := by
    by_contra hc
    have : (2 : Nat) ^ (t + 1 + m) ≤ 2 ^ 8 := Nat.pow_le_pow_right (by norm_num) (by omega)
    omega
  omega

lemma div_div_pow (a m : Nat) : a / 2 ^ m / 2 = a / 2 ^ (m + 1) := by
  rw [Nat.div_div_eq_div_mul, Nat.pow_succ]

lemma high_ancestor_zero {L : Nat} (i : Nat) (h2 : L < 2 ^ 9) (hi : 9 ≤ i) :
    L / 2 ^ i = 0 := by
  apply Nat.div_eq_of_lt
  calc L < 2 ^ 9 := h2
  _ ≤ 2 ^ i := Nat.pow_le_pow_right (by norm_num) hi

/-- Distinct depths of a 256-leaf give distinct ancestors (below the root's
parent). -/
lemma ancestor_inj {L i j : Nat} (h1 : 2 ^ 8 ≤ L) (h2 : L < 2 ^ 9)
    (hi : i ≤ 8) (hj : j ≤ 8) (hne : i ≠ j) : L / 2 ^ i ≠ L / 2 ^ j := by
  intro heq
  obtain ⟨hlo, hhi⟩ := ancestor_range i h1 h2 hi
  have hhi2 : L / 2 ^ i < 2 ^ (8 - i + 1) := by
    have he : 8 - i + 1 = 9 - i := by omega
    rw [he]
    exact hhi
  have h8i := depth_eq h1 h2 hlo hhi2
  obtain ⟨hlo2, hhi3⟩ := ancestor_range j h1 h2 hj
  rw [← heq] at hlo2 hhi3
  have hhi4 : L / 2 ^ i < 2 ^ (8 - j + 1) := by
    have he : 8 - j + 1 = 9 - j := by omega
    rw [he]
    exact hhi3
  have h8j := depth_eq h1 h2 hlo2 hhi4
  omega

/-- The tournament-tree invariant of the loser table.  `W v` is the run whose
head currently wins the subtournament rooted at node `v` (a ghost assignment:
the code stores only the losers). -/
structure TInv (keys lt W : Nat → Nat) : Prop where
  w_leaf : ∀ j, j < 256 → W (256 + j) = j
  w_run : ∀ v, 1 ≤ v → v < 512 → W v < 256
  w_under : ∀ v, 1 ≤ v → v < 512 → ∃ m, (256 + W v) / 2 ^ m = v
  pair : ∀ v, 1 ≤ v → v < 256 →
    (W (2 * v) = W v ∧ W (2 * v + 1) = lt v) ∨
    (W (2 * v) = lt v ∧ W (2 * v + 1) = W v)
  le : ∀ v, 1 ≤ v → v < 256 → keys (W v) ≤ keys (lt v)
  root : lt 0 = W 1

namespace TInv

variable {keys lt W : Nat → Nat}

lemma lt_child (h : TInv keys lt W) {v : Nat} (h1 : 1 ≤ v) (h2 : v < 256) :
    lt v = W (2 * v) ∨ lt v = W (2 * v + 1) := by
  rcases h.pair v h1 h2 with ⟨_, hb⟩ | ⟨ha, _⟩
  · exact Or.inr hb.symm
  · exact Or.inl ha.symm

lemma lt_run (h : TInv keys lt W) {v : Nat} (h1 : 1 ≤ v) (h2 : v < 256) :
    lt v < 256 := by
  rcases h.lt_child h1 h2 with hc | hc
  · rw [hc]
    exact h.w_run _ (by omega) (by omega)
  · rw [hc]
    exact h.w_run _ (by omega) (by omega)

lemma lt_under (h : TInv keys lt W) {v : Nat} (h1 : 1 ≤ v) (h2 : v < 256) :
    ∃ m, (256 + lt v) / 2 ^ m = v := by
  rcases h.lt_child h1 h2 with hc | hc
  · obtain ⟨m, hm⟩ := h.w_under (2 * v) (by omega) (by omega)
    rw [← hc] at hm
    exact ⟨m + 1, by rw [← div_div_pow, hm]; omega⟩
  · obtain ⟨m, hm⟩ := h.w_under (2 * v + 1) (by omega) (by omega)
    rw [← hc] at hm
    exact ⟨m + 1, by rw [← div_div_pow, hm]; omega⟩

/-- The winner of a subtree bounds the head of every run in it. -/
lemma min_subtree (h : TInv keys lt W) :
    ∀ (m v j : Nat), j < 256 → 1 ≤ v → (256 + j) / 2 ^ m = v →
      keys (W v) ≤ keys j := by
  intro m
  induction m with
  | zero =>
    intro v j hj _ hv
    simp only [Nat.pow_zero, Nat.div_one] at hv
    rw [← hv, h.w_leaf j hj]
  | succ m ih =>
    intro v j hj hv1 hv
    have hc : (256 + j) / 2 ^ m / 2 = v := by rw [div_div_pow]; exact hv
    set c := (256 + j) / 2 ^ m with hcdef
    have hcv : c = 2 * v ∨ c = 2 * v + 1 := by omega
    have hc1 : 1 ≤ c := by omega
    have hcl : c < 512 := by
      have : c ≤ 256 + j := Nat.div_le_self _ _
      omega
    have hvl : v < 256 := by omega
    have hstep : keys (W v) ≤ keys (W c) := by
      rcases hcv with hcv | hcv <;>
        rcases h.pair v hv1 hvl with ⟨ha, hb⟩ | ⟨ha, hb⟩
      · rw [hcv, ha]
      · rw [hcv, ha]
        exact h.le v hv1 hvl
      · rw [hcv, hb]
        exact h.le v hv1 hvl
      · rw [hcv, hb]
    exact le_trans hstep (ih c j hj hc1 rfl)

/-- The root names a run of minimal head. -/
lemma root_min (h : TInv keys lt W) {j : Nat} (hj : j < 256) :
    keys (lt 0) ≤ keys j := by
  rw [h.root]
  apply h.min_subtree 8 1 j hj (le_refl 1)
  have h1 : (2 : Nat) ^ 8 = 256 := by norm_num
  rw [h1]
  omega

/-- Along the path from the current winner's leaf to the root, every node's
recorded subtree winner is the current winner. -/
lemma path_winner (h : TInv keys lt W) :
    ∀ d, d ≤ 8 → W ((256 + W 1) / 2 ^ (8 - d)) = W 1 := by
  have hr : W 1 < 256 := h.w_run 1 (le_refl 1) (by norm_num)
  have hL1 : (2 : Nat) ^ 8 ≤ 256 + W 1 := by norm_num
  have hL2 : 256 + W 1 < 2 ^ 9 := by
    have : (2 : Nat) ^ 9 = 512 := by norm_num
    omega
  intro d
  induction d with
  | zero =>
    intro _
    have he : (256 + W 1) / 2 ^ (8 - 0) = 1 := by
      have h8 : (2 : Nat) ^ 8 = 256 := by norm_num
      simp only [Nat.sub_zero, h8]
      omega
    rw [he]
  | succ d ihd =>
    intro hd8
    have ih := ihd (by omega)
    set j := 8 - (d + 1) with hjdef
    have hpar : (256 + W 1) / 2 ^ j / 2 = (256 + W 1) / 2 ^ (8 - d) := by
      rw [div_div_pow]
      have he : j + 1 = 8 - d := by omega
      rw [he]
    set par := (256 + W 1) / 2 ^ (8 - d) with hpardef
    set c := (256 + W 1) / 2 ^ j with hcdef
    obtain ⟨hparlo, hparhi⟩ := ancestor_range (8 - d) hL1 hL2 (by omega)
    have hpar1 : 1 ≤ par := by
      have : (1 : Nat) ≤ 2 ^ (8 - (8 - d)) := Nat.one_le_two_pow
      omega
    have hparl : par < 256 := by
      have hle : (2 : Nat) ^ (9 - (8 - d)) ≤ 2 ^ 8 := by
        apply Nat.pow_le_pow_right (by norm_num)
        omega
      have h8 : (2 : Nat) ^ 8 = 256 := by norm_num
      omega
    have hcv : c = 2 * par ∨ c = 2 * par + 1 := by omega
    have hWpar : W par = W 1 := ih
    -- the other child of `par` cannot also hold the winner
    have hsib : ∀ sib, sib = 2 * par ∨ sib = 2 * par + 1 → sib ≠ c →
        W sib ≠ W 1 := by
      intro sib hsibv hsibne hWsib
      obtain ⟨m, hm⟩ := h.w_under sib (by omega) (by omega)
      rw [hWsib] at hm
      have hmsmall : m ≤ 8 := by
        by_contra hmc
        by_cases hm9 : 9 ≤ m
        · rw [high_ancestor_zero m hL2 hm9] at hm
          omega
        · omega
      have hparm : (256 + W 1) / 2 ^ (m + 1) = par := by
        rw [← div_div_pow, hm]
        omega
      -- both `m + 1` and `8 - d` are depths of the ancestor `par`
      obtain ⟨hlo2, hhi2⟩ := ancestor_range (8 - d) hL1 hL2 (by omega)
      have heqm : m + 1 = 8 - d := by
        by_contra hne
        by_cases hm18 : m + 1 ≤ 8
        · exact (ancestor_inj hL1 hL2 hm18 (by omega) hne)
            (by rw [hparm, hpardef])
        · have h9 : 9 ≤ m + 1 := by omega
          rw [high_ancestor_zero (m + 1) hL2 h9] at hparm
          omega
      have : m = j := by omega
      rw [this] at hm
      rw [← hcdef] at hm
      exact hsibne hm.symm
    rcases hcv with hcv | hcv
    · rcases h.pair par hpar1 hparl with ⟨ha, _⟩ | ⟨ha, hb⟩
      · rw [hcv, ha, hWpar]
      · exact absurd (by rw [hb, hWpar]) (hsib (2 * par + 1) (Or.inr rfl) (by omega))
    · rcases h.pair par hpar1 hparl with ⟨ha, hb⟩ | ⟨ha, hb⟩
      · exact absurd (by rw [ha, hWpar]) (hsib (2 * par) (Or.inl rfl) (by omega))
      · rw [hcv, hb, hWpar]

/-- A node whose recorded winner is the overall winner lies on the winner's
leaf-to-root path. -/
lemma w_eq_imp_path (h : TInv keys lt W) {v : Nat} (h1 : 1 ≤ v) (h2 : v < 512)
    (hw : W v = W 1) : ∃ m, (256 + W 1) / 2 ^ m = v := by
  obtain ⟨m, hm⟩ := h.w_under v h1 h2
  rw [hw] at hm
  exact ⟨m, hm⟩

/-- Off the winner's path, neither the recorded winner nor the recorded loser
is the winning run. -/
lemma off_path_not_winner (h : TInv keys lt W) {v : Nat} (h1 : 1 ≤ v)
    (h2 : v < 256) (hoff : ∀ m, (256 + W 1) / 2 ^ m ≠ v) :
    W v ≠ W 1 ∧ lt v ≠ W 1 := by
  constructor
  · intro hc
    obtain ⟨m, hm⟩ := h.w_eq_imp_path h1 (by omega) hc
    exact hoff m hm
  · intro hc
    rcases h.lt_child h1 h2 with hcl | hcl
    · rw [hc] at hcl
      obtain ⟨m, hm⟩ := h.w_eq_imp_path (v := 2 * v) (by omega) (by omega) hcl.symm
      have : (256 + W 1) / 2 ^ (m + 1) = v := by
        rw [← div_div_pow, hm]
        omega
      exact hoff (m + 1) this
    · rw [hc] at hcl
      obtain ⟨m, hm⟩ := h.w_eq_imp_path (v := 2 * v + 1) (by omega) (by omega) hcl.symm
      have : (256 + W 1) / 2 ^ (m + 1) = v := by
        rw [← div_div_pow, hm]
        omega
      exact hoff (m + 1) this

end TInv

lemma xor_one_even (i : Nat) : (2 * i) ^^^ 1 = 2 * i + 1 := by
  apply Nat.eq_of_testBit_eq
  intro n
  rw [Nat.testBit_xor]
  cases n with
  | zero =>
    have h1 : (2 * i).testBit 0 = false := by
      simp [Nat.testBit_zero, Nat.mul_comm, Nat.mul_add_mod]
    have h2 : (2 * i + 1).testBit 0 = true := by
      simp only [Nat.testBit_zero, decide_eq_true_eq]
      omega
    simp [h1, h2]
  | succ n =>
    have h1 : (1 : Nat).testBit (n + 1) = false :=
      Nat.testBit_eq_false_of_lt (by
        have : (2 : Nat) ^ 1 ≤ 2 ^ (n + 1) := Nat.pow_le_pow_right (by norm_num) (by omega)
        omega)
    rw [h1, Bool.xor_false, Nat.testBit_succ, Nat.testBit_succ]
    have he : 2 * i / 2 = (2 * i + 1) / 2 := by omega
    rw [he]

lemma xor_one_odd (i : Nat) : (2 * i + 1) ^^^ 1 = 2 * i := by
  apply Nat.eq_of_testBit_eq
  intro n
  rw [Nat.testBit_xor]
  cases n with
  | zero =>
    have h1 : (2 * i).testBit 0 = false := by
      simp [Nat.testBit_zero, Nat.mul_comm, Nat.mul_add_mod]
    have h2 : (2 * i + 1).testBit 0 = true := by
      simp only [Nat.testBit_zero, decide_eq_true_eq]
      omega
    simp [h1, h2]
  | succ n =>
    have h1 : (1 : Nat).testBit (n + 1) = false :=
      Nat.testBit_eq_false_of_lt (by
        have : (2 : Nat) ^ 1 ≤ 2 ^ (n + 1) := Nat.pow_le_pow_right (by norm_num) (by omega)
        omega)
    rw [h1, Bool.xor_false, Nat.testBit_succ, Nat.testBit_succ]
    have he : 2 * i / 2 = (2 * i + 1) / 2 := by omega
    rw [he]

lemma initStep_left (keys : Nat → Nat) (wl : (Nat → Nat) × (Nat → Nat)) (i : Nat)
    (hi : 1 ≤ i) (h : keys (wl.1 (2 * i)) < keys (wl.1 (2 * i + 1))) :
    initStep keys wl i =
      (Function.update wl.1 i (wl.1 (2 * i)),
       Function.update wl.2 i (wl.1 (2 * i + 1))) := by
  simp only [initStep]
  rw [if_pos h, xor_one_even]
  rw [Function.update_noteq (show 2 * i + 1 ≠ i by omega)]

lemma initStep_right (keys : Nat → Nat) (wl : (Nat → Nat) × (Nat → Nat)) (i : Nat)
    (hi : 1 ≤ i) (h : ¬ keys (wl.1 (2 * i)) < keys (wl.1 (2 * i + 1))) :
    initStep keys wl i =
      (Function.update wl.1 i (wl.1 (2 * i + 1)),
       Function.update wl.2 i (wl.1 (2 * i))) := by
  simp only [initStep]
  rw [if_neg h, xor_one_odd]
  rw [Function.update_noteq (show 2 * i ≠ i by omega)]

/-- One step of the initialisation loop preserves the partial tournament
invariant (winners correct for all processed nodes `≥ i`). -/
lemma initInv_step (keys w lt w2 lt2 : Nat → Nat) (i : Nat)
    (hi1 : 1 ≤ i) (hi2 : i < 256)
    (hleaf : ∀ v, 256 ≤ v → v < 512 → w v = v - 256)
    (hint : ∀ v, i < v → v < 256 →
      w v < 256 ∧ (∃ m, (256 + w v) / 2 ^ m = v) ∧
      ((w (2 * v) = w v ∧ w (2 * v + 1) = lt v) ∨
       (w (2 * v) = lt v ∧ w (2 * v + 1) = w v)) ∧
      keys (w v) ≤ keys (lt v))
    (hstep : (w2, lt2) = initStep keys (w, lt) i) :
    (∀ v, 256 ≤ v → v < 512 → w2 v = v - 256) ∧
    (∀ v, i ≤ v → v < 256 →
      w2 v < 256 ∧ (∃ m, (256 + w2 v) / 2 ^ m = v) ∧
      ((w2 (2 * v) = w2 v ∧ w2 (2 * v + 1) = lt2 v) ∨
       (w2 (2 * v) = lt2 v ∧ w2 (2 * v + 1) = w2 v)) ∧
      keys (w2 v) ≤ keys (lt2 v)) := by
  have hchild : ∀ c, i < c → c < 512 →
      w c < 256 ∧ ∃ m, (256 + w c) / 2 ^ m = c := by
    intro c hc1 hc2
    by_cases hcl : c < 256
    · have hc := hint c hc1 hcl
      exact ⟨hc.1, hc.2.1⟩
    · have hc := hleaf c (by omega) hc2
      rw [hc]
      refine ⟨by omega, 0, ?_⟩
      simp only [pow_zero, Nat.div_one]
      omega
  have hc2i := hchild (2 * i) (by omega) (by omega)
  have hc2i1 := hchild (2 * i + 1) (by omega) (by omega)
  by_cases hcmp : keys (w (2 * i)) < keys (w (2 * i + 1))
  · rw [initStep_left keys (w, lt) i hi1 hcmp, Prod.mk.injEq] at hstep
    obtain ⟨hw2, hlt2⟩ := hstep
    constructor
    · intro v h1 h2
      rw [hw2, Function.update_noteq (by omega)]
      exact hleaf v h1 h2
    · intro v h1 h2
      by_cases hvi : v = i
      · subst hvi
        rw [hw2, hlt2, Function.update_same, Function.update_same,
          Function.update_noteq (show 2 * v ≠ v by omega),
          Function.update_noteq (show 2 * v + 1 ≠ v by omega)]
        refine ⟨hc2i.1, ?_, Or.inl ⟨rfl, rfl⟩, le_of_lt hcmp⟩
        obtain ⟨m, hm⟩ := hc2i.2
        exact ⟨m + 1, by rw [← div_div_pow, hm]; omega⟩
      · have hv := hint v (by omega) h2
        rw [hw2, hlt2, Function.update_noteq (show v ≠ i by omega),
          Function.update_noteq (show 2 * v ≠ i by omega),
          Function.update_noteq (show 2 * v + 1 ≠ i by omega),
          Function.update_noteq (show v ≠ i by omega)]
        exact hv
  · rw [initStep_right keys (w, lt) i hi1 hcmp, Prod.mk.injEq] at hstep
    obtain ⟨hw2, hlt2⟩ := hstep
    constructor
    · intro v h1 h2
      rw [hw2, Function.update_noteq (by omega)]
      exact hleaf v h1 h2
    · intro v h1 h2
      by_cases hvi : v = i
      · subst hvi
        rw [hw2, hlt2, Function.update_same, Function.update_same,
          Function.update_noteq (show 2 * v ≠ v by omega),
          Function.update_noteq (show 2 * v + 1 ≠ v by omega)]
        refine ⟨hc2i1.1, ?_, Or.inr ⟨rfl, rfl⟩, le_of_not_lt hcmp⟩
        obtain ⟨m, hm⟩ := hc2i1.2
        exact ⟨m + 1, by rw [← div_div_pow, hm]; omega⟩
      · have hv := hint v (by omega) h2
        rw [hw2, hlt2, Function.update_noteq (show v ≠ i by omega),
          Function.update_noteq (show 2 * v ≠ i by omega),
          Function.update_noteq (show 2 * v + 1 ≠ i by omega),
          Function.update_noteq (show v ≠ i by omega)]
        exact hv

lemma initDown_spec (keys : Nat → Nat) :
    ∀ n, n ≤ 255 →
    (∀ v, 256 ≤ v → v < 512 → (initDown keys n).1 v = v - 256) ∧
    (∀ v, 256 - n ≤ v → v < 256 →
      (initDown keys n).1 v < 256 ∧
      (∃ m, (256 + (initDown keys n).1 v) / 2 ^ m = v) ∧
      (((initDown keys n).1 (2 * v) = (initDown keys n).1 v ∧
        (initDown keys n).1 (2 * v + 1) = (initDown keys n).2 v) ∨
       ((initDown keys n).1 (2 * v) = (initDown keys n).2 v ∧
        (initDown keys n).1 (2 * v + 1) = (initDown keys n).1 v)) ∧
      keys ((initDown keys n).1 v) ≤ keys ((initDown keys n).2 v)) := by
  intro n
  induction n with
  | zero =>
    intro _
    constructor
    · intro v h1 h2
      show v % NMERGE = v - 256
      have hN : NMERGE = 256 := rfl
      rw [hN]
      omega
    · intro v h1 h2
      omega
  | succ n ih =>
    intro hn
    obtain ⟨ihl, ihi⟩ := ih (by omega)
    have hstep : ((initDown keys (n + 1)).1, (initDown keys (n + 1)).2)
        = initStep keys ((initDown keys n).1, (initDown keys n).2)
          (256 - (n + 1)) := rfl
    have hres := initInv_step keys (initDown keys n).1 (initDown keys n).2
      (initDown keys (n + 1)).1 (initDown keys (n + 1)).2 (256 - (n + 1))
      (by omega) (by omega) ihl
      (fun v hv1 hv2 => ihi v (by omega) hv2) hstep
    exact ⟨hres.1, fun v hv1 hv2 => hres.2 v (by omega) hv2⟩

/-- After the initialisation loop the loser table satisfies the tournament
invariant, with the `winners` array as ghost witness. -/
lemma initLT_TInv (keys : Nat → Nat) :
    TInv keys (initLT keys) (initDown keys 255).1 := by
  obtain ⟨hleaf, hint⟩ := initDown_spec keys 255 (le_refl 255)
  have hlt : initLT keys
      = Function.update (initDown keys 255).2 0 ((initDown keys 255).1 1) := rfl
  constructor
  · intro j hj
    have := hleaf (256 + j) (by omega) (by omega)
    omega
  · intro v h1 h2
    by_cases hv : 256 ≤ v
    · have := hleaf v hv h2
      omega
    · exact (hint v (by omega) (by omega)).1
  · intro v h1 h2
    by_cases hv : 256 ≤ v
    · refine ⟨0, ?_⟩
      rw [hleaf v hv h2]
      simp only [pow_zero, Nat.div_one]
      omega
    · exact (hint v (by omega) (by omega)).2.1
  · intro v h1 h2
    rw [hlt, Function.update_noteq (show v ≠ 0 by omega)]
    exact (hint v (by omega) h2).2.2.1
  · intro v h1 h2
    rw [hlt, Function.update_noteq (show v ≠ 0 by omega)]
    exact (hint v (by omega) h2).2.2.2
  · rw [hlt, Function.update_same]

/-- The replay pass of `mergeStep`, reformulated as a fold over the list of
path nodes (processed from the tail of the list): carries the current
winner index, its key, and the partially rewritten loser table. -/
def replayUp (keys lt : Nat → Nat) (r : Nat) : List Nat → Nat × Nat × (Nat → Nat)
  | [] => (r, keys r, lt)
  | v :: rest =>
    let prev := replayUp keys lt r rest
    let a := replay prev.1 prev.2.1 (lt v) (keys (lt v))
    (a.1, a.2.1, Function.update prev.2.2 v a.2.2)

/-- The path nodes `L / 2^j, …, L / 2` (deepest last). -/
def pathList (L : Nat) : Nat → List Nat
  | 0 => []
  | j + 1 => L / 2 ^ (j + 1) :: pathList L j

lemma mergeStep_out (s : MState) : (mergeStep s).1 = s.keys (s.lt 0) := rfl

lemma mergeStep_keys (s : MState) : (mergeStep s).2.keys
    = Function.update s.keys (s.lt 0) ((s.rest (s.lt 0)).headD sentinel) := rfl

lemma mergeStep_rest (s : MState) : (mergeStep s).2.rest
    = Function.update s.rest (s.lt 0) ((s.rest (s.lt 0)).tail) := rfl

/-- `mergeStep`'s loser-table rewrite is `replayUp` over the literal path. -/
lemma mergeStep_lt (s : MState) : (mergeStep s).2.lt
    = Function.update
        (replayUp (Function.update s.keys (s.lt 0) ((s.rest (s.lt 0)).headD sentinel))
          s.lt (s.lt 0)
          [1, (s.lt 0 + NMERGE) >>> 7, (s.lt 0 + NMERGE) >>> 6,
           (s.lt 0 + NMERGE) >>> 5, (s.lt 0 + NMERGE) >>> 4,
           (s.lt 0 + NMERGE) >>> 3, (s.lt 0 + NMERGE) >>> 2,
           (s.lt 0 + NMERGE) >>> 1]).2.2
        0
        (replayUp (Function.update s.keys (s.lt 0) ((s.rest (s.lt 0)).headD sentinel))
          s.lt (s.lt 0)
          [1, (s.lt 0 + NMERGE) >>> 7, (s.lt 0 + NMERGE) >>> 6,
           (s.lt 0 + NMERGE) >>> 5, (s.lt 0 + NMERGE) >>> 4,
           (s.lt 0 + NMERGE) >>> 3, (s.lt 0 + NMERGE) >>> 2,
           (s.lt 0 + NMERGE) >>> 1]).1 := rfl

/-- The literal path of `mergeStep` is `pathList (256 + r) 8` when the winner
index `r` is a genuine run index. -/
lemma mergeStep_path (r : Nat) (hr : r < 256) :
    [1, (r + NMERGE) >>> 7, (r + NMERGE) >>> 6, (r + NMERGE) >>> 5,
     (r + NMERGE) >>> 4, (r + NMERGE) >>> 3, (r + NMERGE) >>> 2,
     (r + NMERGE) >>> 1] = pathList (256 + r) 8 := by
  have hpl : pathList (256 + r) 8
      = [(256 + r) / 2 ^ 8, (256 + r) / 2 ^ 7, (256 + r) / 2 ^ 6, (256 + r) / 2 ^ 5,
         (256 + r) / 2 ^ 4, (256 + r) / 2 ^ 3, (256 + r) / 2 ^ 2, (256 + r) / 2 ^ 1] := rfl
  have hsh : ∀ k : Nat, (r + NMERGE) >>> k = (256 + r) / 2 ^ k := by
    intro k
    rw [Nat.shiftRight_eq_div_pow]
    congr 1
    show r + NMERGE = 256 + r
    have hN : NMERGE = 256 := rfl
    omega
  rw [hpl, hsh 7, hsh 6, hsh 5, hsh 4, hsh 3, hsh 2, hsh 1]
  congr 1
  have h8 : (2 : Nat) ^ 8 = 256 := by norm_num
  rw [h8]
  omega

/-- Invariant carried while replaying the new entrant up the path:
`ru` is the replay state after the levels `1..j`, `W2` the updated ghost
winner assignment. -/
def RUInv (keys2 lt W : Nat → Nat) (L j : Nat)
    (ru : Nat × Nat × (Nat → Nat)) (W2 : Nat → Nat) : Prop :=
  ru.2.1 = keys2 ru.1 ∧
  ru.1 < 256 ∧
  (∃ m, (256 + ru.1) / 2 ^ m = L / 2 ^ j) ∧
  (∀ v, (∀ i, 1 ≤ i → i ≤ j → v ≠ L / 2 ^ i) → ru.2.2 v = lt v) ∧
  (∀ v, (∀ i, 1 ≤ i → i ≤ j → v ≠ L / 2 ^ i) → W2 v = W v) ∧
  W2 (L / 2 ^ j) = ru.1 ∧
  (∀ v, 1 ≤ v → v < 512 → W2 v < 256) ∧
  (∀ v, 1 ≤ v → v < 512 → ∃ m, (256 + W2 v) / 2 ^ m = v) ∧
  (∀ v, 1 ≤ v → v < 256 → (¬ ∃ i, j < i ∧ i ≤ 8 ∧ v = L / 2 ^ i) →
    ((W2 (2 * v) = W2 v ∧ W2 (2 * v + 1) = ru.2.2 v) ∨
     (W2 (2 * v) = ru.2.2 v ∧ W2 (2 * v + 1) = W2 v)) ∧
    keys2 (W2 v) ≤ keys2 (ru.2.2 v))

/-- A node that equals no positive-depth ancestor of `L` is off the whole
ancestor chain of `L`. -/
lemma off_path_all {L v : Nat} (hL1 : 2 ^ 8 ≤ L) (hL2 : L < 2 ^ 9)
    (h1 : 1 ≤ v) (h2 : v < 256)
    (hni : ¬ ∃ i, 0 < i ∧ i ≤ 8 ∧ v = L / 2 ^ i) : ∀ m, L / 2 ^ m ≠ v := by
  intro m hm
  apply hni
  by_cases h9 : 9 ≤ m
  · rw [high_ancestor_zero m hL2 h9] at hm
    omega
  · by_cases h0 : m = 0
    · subst h0
      rw [pow_zero, Nat.div_one] at hm
      have h8 : (2 : Nat) ^ 8 = 256 := by norm_num
      omega
    · exact ⟨m, by omega, by omega, hm.symm⟩

/-- Replaying the drawn successor key up the path preserves the tournament
structure level by level. -/
lemma replayUp_inv (keys lt W : Nat → Nat) (nk r L : Nat)
    (h : TInv keys lt W) (hr : W 1 = r) (hL : L = 256 + r) :
    ∀ j, j ≤ 8 → ∃ W2, RUInv (Function.update keys r nk) lt W L j
      (replayUp (Function.update keys r nk) lt r (pathList L j)) W2 := by
  have hr256 : r < 256 := by
    rw [← hr]
    exact h.w_run 1 (le_refl 1) (by norm_num)
  have h8 : (2 : Nat) ^ 8 = 256 := by norm_num
  have h9 : (2 : Nat) ^ 9 = 512 := by norm_num
  have hL1 : 2 ^ 8 ≤ L := by omega
  have hL2 : L < 2 ^ 9 := by omega
  have hWnode : ∀ k, k ≤ 8 → W (L / 2 ^ k) = r := by
    intro k hk
    have hp := h.path_winner (8 - k) (by omega)
    rw [show 8 - (8 - k) = k by omega] at hp
    rw [hL, ← hr]
    exact hp
  intro j
  induction j with
  | zero =>
    intro _
    refine ⟨W, rfl, hr256, ⟨0, ?_⟩, fun v _ => rfl, fun v _ => rfl, ?_, h.w_run,
      h.w_under, ?_⟩
    · show (256 + r) / 2 ^ 0 = L / 2 ^ 0
      rw [pow_zero, Nat.div_one, Nat.div_one]
      omega
    · rw [pow_zero, Nat.div_one, hL]
      rw [← hr] at hr256 ⊢
      exact h.w_leaf (W 1) hr256
    · intro v h1 h2 hne
      refine ⟨h.pair v h1 h2, ?_⟩
      show Function.update keys r nk (W v) ≤ Function.update keys r nk (lt v)
      have hoff : ∀ m, L / 2 ^ m ≠ v :=
        off_path_all hL1 hL2 h1 h2 (by
          intro ⟨i, hi1, hi2, hi3⟩
          exact hne ⟨i, by omega, hi2, hi3⟩)
      have hoff2 : ∀ m, (256 + W 1) / 2 ^ m ≠ v := by
        intro m
        rw [hr, ← hL]
        exact hoff m
      obtain ⟨hWne, hltne⟩ := h.off_path_not_winner h1 h2 hoff2
      rw [Function.update_noteq (show W v ≠ r by rw [← hr]; exact hWne),
        Function.update_noteq (show lt v ≠ r by rw [← hr]; exact hltne)]
      exact h.le v h1 h2
  | succ j ihj =>
    intro hj8
    obtain ⟨W2, hC1, hC2, hC3, hC4, hC5, hC6, hC7, hC8, hC9⟩ := ihj (by omega)
    -- bounds for the new node and the path child
    obtain ⟨hvlo, hvhi⟩ := ancestor_range (j + 1) hL1 hL2 hj8
    have hv1 : 1 ≤ L / 2 ^ (j + 1) := le_trans Nat.one_le_two_pow hvlo
    have hv256 : L / 2 ^ (j + 1) < 256 := by
      have : (2 : Nat) ^ (9 - (j + 1)) ≤ 2 ^ 8 :=
        Nat.pow_le_pow_right (by norm_num) (by omega)
      omega
    obtain ⟨hqlo, hqhi⟩ := ancestor_range j hL1 hL2 (by omega)
    have hq1 : 1 ≤ L / 2 ^ j := le_trans Nat.one_le_two_pow hqlo
    have hq512 : L / 2 ^ j < 512 := by
      have : (2 : Nat) ^ (9 - j) ≤ 2 ^ 9 :=
        Nat.pow_le_pow_right (by norm_num) (by omega)
      omega
    have hq2 : L / 2 ^ j / 2 = L / 2 ^ (j + 1) := div_div_pow L j
    have hqv : L / 2 ^ j = 2 * (L / 2 ^ (j + 1)) ∨
        L / 2 ^ j = 2 * (L / 2 ^ (j + 1)) + 1 := by omega
    have hqne : L / 2 ^ j ≠ L / 2 ^ (j + 1) :=
      ancestor_inj hL1 hL2 (by omega) hj8 (by omega)
    have hWv : W (L / 2 ^ (j + 1)) = r := hWnode (j + 1) hj8
    have hWq : W (L / 2 ^ j) = r := hWnode j (by omega)
    -- the sibling of the path child under the new node
    obtain ⟨sib, hsibv, hsibq, hWsib, hsibpos⟩ :
        ∃ sib, (sib = 2 * (L / 2 ^ (j + 1)) ∨ sib = 2 * (L / 2 ^ (j + 1)) + 1) ∧
          sib ≠ L / 2 ^ j ∧ W sib = lt (L / 2 ^ (j + 1)) ∧
          ((L / 2 ^ j = 2 * (L / 2 ^ (j + 1)) ∧ sib = 2 * (L / 2 ^ (j + 1)) + 1) ∨
           (L / 2 ^ j = 2 * (L / 2 ^ (j + 1)) + 1 ∧ sib = 2 * (L / 2 ^ (j + 1)))) := by
      rcases hqv with hq | hq
      · refine ⟨2 * (L / 2 ^ (j + 1)) + 1, Or.inr rfl, by omega, ?_, Or.inl ⟨hq, rfl⟩⟩
        rcases h.pair (L / 2 ^ (j + 1)) hv1 hv256 with ⟨ha, hb⟩ | ⟨ha, hb⟩
        · exact hb
        · rw [hb, hWv, ← ha, ← hq, hWq]
      · refine ⟨2 * (L / 2 ^ (j + 1)), Or.inl rfl, by omega, ?_, Or.inr ⟨hq, rfl⟩⟩
        rcases h.pair (L / 2 ^ (j + 1)) hv1 hv256 with ⟨ha, hb⟩ | ⟨ha, hb⟩
        · rw [ha, hWv, ← hb, ← hq, hWq]
        · exact ha
    have hsib2 : sib / 2 = L / 2 ^ (j + 1) := by omega
    have hsiboff : ∀ m, L / 2 ^ m ≠ sib := by
      intro m hm
      have hpar : L / 2 ^ (m + 1) = L / 2 ^ (j + 1) := by
        rw [← div_div_pow, hm, hsib2]
      by_cases h9m : 9 ≤ m + 1
      · rw [high_ancestor_zero _ hL2 h9m] at hpar
        omega
      · by_cases hmj : m = j
        · subst hmj
          exact hsibq hm.symm
        · exact absurd hpar (ancestor_inj hL1 hL2 (by omega) hj8 (by omega))
    have hW2sib : W2 sib = W sib := hC5 sib (fun i _ _ => (hsiboff i).symm)
    -- sibling and path child are not the new node
    have hsibne : sib ≠ L / 2 ^ (j + 1) := by omega
    -- unfold the replay one level
    have hcons : pathList L (j + 1) = L / 2 ^ (j + 1) :: pathList L j := rfl
    have hstep : replayUp (Function.update keys r nk) lt r (pathList L (j + 1))
        = ((replay (replayUp (Function.update keys r nk) lt r (pathList L j)).1
              (replayUp (Function.update keys r nk) lt r (pathList L j)).2.1
              (lt (L / 2 ^ (j + 1)))
              (Function.update keys r nk (lt (L / 2 ^ (j + 1))))).1,
           (replay (replayUp (Function.update keys r nk) lt r (pathList L j)).1
              (replayUp (Function.update keys r nk) lt r (pathList L j)).2.1
              (lt (L / 2 ^ (j + 1)))
              (Function.update keys r nk (lt (L / 2 ^ (j + 1))))).2.1,
           Function.update
             (replayUp (Function.update keys r nk) lt r (pathList L j)).2.2
             (L / 2 ^ (j + 1))
             (replay (replayUp (Function.update keys r nk) lt r (pathList L j)).1
               (replayUp (Function.update keys r nk) lt r (pathList L j)).2.1
               (lt (L / 2 ^ (j + 1)))
               (Function.update keys r nk (lt (L / 2 ^ (j + 1))))).2.2) := by
      rw [hcons]
      rfl
    rw [hC1] at hstep
    have hli256 : lt (L / 2 ^ (j + 1)) < 256 := h.lt_run hv1 hv256
    have hliund : ∃ m, (256 + lt (L / 2 ^ (j + 1))) / 2 ^ m = L / 2 ^ (j + 1) :=
      h.lt_under hv1 hv256
    -- abbreviations (plain hypotheses, no lets)
    set keys2 := Function.update keys r nk with hkeys2
    set P := (replayUp keys2 lt r (pathList L j)).1 with hP
    set li := lt (L / 2 ^ (j + 1)) with hli
    -- facts shared by both replay outcomes
    have hq2v : (2 : Nat) * (L / 2 ^ (j + 1)) ≠ L / 2 ^ (j + 1) := by omega
    have hq2v1 : (2 : Nat) * (L / 2 ^ (j + 1)) + 1 ≠ L / 2 ^ (j + 1) := by omega
    have hchildne : ∀ v, 1 ≤ v → v < 256 →
        (¬ ∃ i, j + 1 < i ∧ i ≤ 8 ∧ v = L / 2 ^ i) → v ≠ L / 2 ^ (j + 1) →
        2 * v ≠ L / 2 ^ (j + 1) ∧ 2 * v + 1 ≠ L / 2 ^ (j + 1) := by
      intro v h1 h2 hne hvn
      have hdd : L / 2 ^ (j + 1) / 2 = L / 2 ^ (j + 2) := div_div_pow L (j + 1)
      constructor
      · intro hcv
        have hveq : v = L / 2 ^ (j + 2) := by omega
        by_cases hj7 : j + 2 ≤ 8
        · exact hne ⟨j + 2, by omega, hj7, hveq⟩
        · rw [high_ancestor_zero (j + 2) hL2 (by omega)] at hveq
          omega
      · intro hcv
        have hveq : v = L / 2 ^ (j + 2) := by omega
        by_cases hj7 : j + 2 ≤ 8
        · exact hne ⟨j + 2, by omega, hj7, hveq⟩
        · rw [high_ancestor_zero (j + 2) hL2 (by omega)] at hveq
          omega
    by_cases hc : keys2 P < keys2 li
    · have hA : replay P (keys2 P) li (keys2 li) = (P, keys2 P, li) := by
        unfold replay
        rw [if_pos hc]
      rw [hA] at hstep
      have hru1 : (replayUp keys2 lt r (pathList L (j + 1))).1 = P := by
        rw [hstep]
      have hru21 : (replayUp keys2 lt r (pathList L (j + 1))).2.1 = keys2 P := by
        rw [hstep]
      have hru22 : (replayUp keys2 lt r (pathList L (j + 1))).2.2
          = Function.update (replayUp keys2 lt r (pathList L j)).2.2
              (L / 2 ^ (j + 1)) li := by
        rw [hstep]
      refine ⟨Function.update W2 (L / 2 ^ (j + 1)) P, ?_⟩
      unfold RUInv
      rw [hru1, hru21, hru22]
      refine ⟨rfl, hC2, ?_, ?_, ?_, ?_, ?_, ?_, ?_⟩
      · obtain ⟨m, hm⟩ := hC3
        exact ⟨m + 1, by rw [← div_div_pow, hm, hq2]⟩
      · intro v hv
        rw [Function.update_noteq (hv (j + 1) (by omega) (le_refl _))]
        exact hC4 v (fun i hi1 hi2 => hv i hi1 (by omega))
      · intro v hv
        rw [Function.update_noteq (hv (j + 1) (by omega) (le_refl _))]
        exact hC5 v (fun i hi1 hi2 => hv i hi1 (by omega))
      · rw [Function.update_same]
      · intro v h1 h2
        by_cases hvn : v = L / 2 ^ (j + 1)
        · subst hvn
          rw [Function.update_same]
          exact hC2
        · rw [Function.update_noteq hvn]
          exact hC7 v h1 h2
      · intro v h1 h2
        by_cases hvn : v = L / 2 ^ (j + 1)
        · subst hvn
          rw [Function.update_same]
          obtain ⟨m, hm⟩ := hC3
          exact ⟨m + 1, by rw [← div_div_pow, hm, hq2]⟩
        · rw [Function.update_noteq hvn]
          exact hC8 v h1 h2
      · intro v h1 h2 hne
        by_cases hvn : v = L / 2 ^ (j + 1)
        · subst hvn
          rw [Function.update_same, Function.update_same]
          refine ⟨?_, le_of_lt hc⟩
          rcases hsibpos with ⟨hqeq, hsibeq⟩ | ⟨hqeq, hsibeq⟩
          · left
            constructor
            · rw [Function.update_noteq hq2v, ← hqeq]
              exact hC6
            · rw [Function.update_noteq hq2v1, ← hsibeq, hW2sib]
              exact hWsib
          · right
            constructor
            · rw [Function.update_noteq hq2v, ← hsibeq, hW2sib]
              exact hWsib
            · rw [Function.update_noteq hq2v1, ← hqeq]
              exact hC6
        · have hne2 : ¬ ∃ i, j < i ∧ i ≤ 8 ∧ v = L / 2 ^ i := by
            rintro ⟨i, hi1, hi2, hi3⟩
            by_cases hij : i = j + 1
            · subst hij
              exact hvn hi3
            · exact hne ⟨i, by omega, hi2, hi3⟩
          obtain ⟨hcne1, hcne2⟩ := hchildne v h1 h2 hne hvn
          obtain ⟨hpairv, hlev⟩ := hC9 v h1 h2 hne2
          rw [Function.update_noteq hvn, Function.update_noteq hcne1,
            Function.update_noteq hcne2, Function.update_noteq hvn]
          exact ⟨hpairv, hlev⟩
    · have hA : replay P (keys2 P) li (keys2 li) = (li, keys2 li, P) := by
        unfold replay
        rw [if_neg hc]
      rw [hA] at hstep
      have hru1 : (replayUp keys2 lt r (pathList L (j + 1))).1 = li := by
        rw [hstep]
      have hru21 : (replayUp keys2 lt r (pathList L (j + 1))).2.1 = keys2 li := by
        rw [hstep]
      have hru22 : (replayUp keys2 lt r (pathList L (j + 1))).2.2
          = Function.update (replayUp keys2 lt r (pathList L j)).2.2
              (L / 2 ^ (j + 1)) P := by
        rw [hstep]
      refine ⟨Function.update W2 (L / 2 ^ (j + 1)) li, ?_⟩
      unfold RUInv
      rw [hru1, hru21, hru22]
      refine ⟨rfl, hli256, ?_, ?_, ?_, ?_, ?_, ?_, ?_⟩
      · obtain ⟨m, hm⟩ := hliund
        exact ⟨m, by rw [hli] at hm ⊢; exact hm⟩
      · intro v hv
        rw [Function.update_noteq (hv (j + 1) (by omega) (le_refl _))]
        exact hC4 v (fun i hi1 hi2 => hv i hi1 (by omega))
      · intro v hv
        rw [Function.update_noteq (hv (j + 1) (by omega) (le_refl _))]
        exact hC5 v (fun i hi1 hi2 => hv i hi1 (by omega))
      · rw [Function.update_same]
      · intro v h1 h2
        by_cases hvn : v = L / 2 ^ (j + 1)
        · subst hvn
          rw [Function.update_same]
          exact hli256
        · rw [Function.update_noteq hvn]
          exact hC7 v h1 h2
      · intro v h1 h2
        by_cases hvn : v = L / 2 ^ (j + 1)
        · subst hvn
          rw [Function.update_same]
          obtain ⟨m, hm⟩ := hliund
          exact ⟨m, by rw [hli] at hm ⊢; exact hm⟩
        · rw [Function.update_noteq hvn]
          exact hC8 v h1 h2
      · intro v h1 h2 hne
        by_cases hvn : v = L / 2 ^ (j + 1)
        · subst hvn
          rw [Function.update_same, Function.update_same]
          refine ⟨?_, le_of_not_lt hc⟩
          rcases hsibpos with ⟨hqeq, hsibeq⟩ | ⟨hqeq, hsibeq⟩
          · right
            constructor
            · rw [Function.update_noteq hq2v, ← hqeq]
              exact hC6
            · rw [Function.update_noteq hq2v1, ← hsibeq, hW2sib]
              exact hWsib
          · left
            constructor
            · rw [Function.update_noteq hq2v, ← hsibeq, hW2sib]
              exact hWsib
            · rw [Function.update_noteq hq2v1, ← hqeq]
              exact hC6
        · have hne2 : ¬ ∃ i, j < i ∧ i ≤ 8 ∧ v = L / 2 ^ i := by
            rintro ⟨i, hi1, hi2, hi3⟩
            by_cases hij : i = j + 1
            · subst hij
              exact hvn hi3
            · exact hne ⟨i, by omega, hi2, hi3⟩
          obtain ⟨hcne1, hcne2⟩ := hchildne v h1 h2 hne hvn
          obtain ⟨hpairv, hlev⟩ := hC9 v h1 h2 hne2
          rw [Function.update_noteq hvn, Function.update_noteq hcne1,
            Function.update_noteq hcne2, Function.update_noteq hvn]
          exact ⟨hpairv, hlev⟩

/-- One `mergeStep` preserves the tournament invariant (for the updated keys
and some updated ghost winner assignment). -/
lemma mergeStep_TInv (s : MState) (W : Nat → Nat) (h : TInv s.keys s.lt W) :
    ∃ W2, TInv (mergeStep s).2.keys (mergeStep s).2.lt W2 := by
  have hr256 : s.lt 0 < 256 := by
    rw [h.root]
    exact h.w_run 1 (le_refl 1) (by norm_num)
  have h8 : (2 : Nat) ^ 8 = 256 := by norm_num
  obtain ⟨W2, hRU⟩ := replayUp_inv s.keys s.lt W ((s.rest (s.lt 0)).headD sentinel)
    (s.lt 0) (256 + s.lt 0) h h.root.symm rfl 8 (le_refl 8)
  unfold RUInv at hRU
  obtain ⟨hC1, hC2, hC3, hC4, hC5, hC6, hC7, hC8, hC9⟩ := hRU
  have hltE : (mergeStep s).2.lt
      = Function.update
          (replayUp (Function.update s.keys (s.lt 0) ((s.rest (s.lt 0)).headD sentinel))
            s.lt (s.lt 0) (pathList (256 + s.lt 0) 8)).2.2
          0
          (replayUp (Function.update s.keys (s.lt 0) ((s.rest (s.lt 0)).headD sentinel))
            s.lt (s.lt 0) (pathList (256 + s.lt 0) 8)).1 := by
    rw [mergeStep_lt, mergeStep_path (s.lt 0) hr256]
  have hsm : ∀ i, 1 ≤ i → (256 + s.lt 0) / 2 ^ i < 256 := by
    intro i hi
    rw [Nat.div_lt_iff_lt_mul (two_pow_pos i)]
    have h21 : (2 : Nat) ≤ 2 ^ i := by
      calc (2 : Nat) = 2 ^ 1 := by norm_num
      _ ≤ 2 ^ i := Nat.pow_le_pow_right (by norm_num) hi
    have h2 : 256 * 2 ≤ 256 * 2 ^ i := Nat.mul_le_mul (le_refl 256) h21
    omega
  refine ⟨W2, ?_⟩
  rw [mergeStep_keys, hltE]
  constructor
  · intro jj hjj
    have hagree := hC5 (256 + jj) (by
      intro i hi1 hi2
      have := hsm i hi1
      omega)
    rw [hagree]
    exact h.w_leaf jj hjj
  · exact hC7
  · exact hC8
  · intro v h1 h2
    rw [Function.update_noteq (show v ≠ 0 by omega)]
    exact (hC9 v h1 h2 (by rintro ⟨i, hi1, hi2, _⟩; omega)).1
  · intro v h1 h2
    rw [Function.update_noteq (show v ≠ 0 by omega)]
    exact (hC9 v h1 h2 (by rintro ⟨i, hi1, hi2, _⟩; omega)).2
  · rw [Function.update_same]
    have h1eq : (256 + s.lt 0) / 2 ^ 8 = 1 := by
      rw [h8]
      omega
    rw [h1eq] at hC6
    exact hC6.symm

/-- Global invariant of the `merge256` emission loop: the tournament is
well-formed, the remaining runs are sorted and bounded by the sentinel, the
emitted prefix `out` is sorted and below every current head, and the emitted
plus remaining values form the initial content `I` up to phantom sentinels. -/
structure GInv (I : Multiset Nat) (out : List Nat) (s : MState) : Prop where
  tinv : ∃ W, TInv s.keys s.lt W
  runs : ∀ i, i < 256 → List.Sorted (fun a b : Nat => a ≤ b) (s.keys i :: s.rest i)
  bound : ∀ i, i < 256 → s.keys i ≤ sentinel ∧ ∀ x ∈ s.rest i, x ≤ sentinel
  outSorted : List.Sorted (fun a b : Nat => a ≤ b) out
  mono : ∀ x ∈ out, ∀ i, i < 256 → x ≤ s.keys i
  ms : ∃ e, (out : Multiset Nat)
      + (Finset.range 256).sum (fun i => s.keys i ::ₘ ((s.rest i : List Nat) : Multiset Nat))
      = I + Multiset.replicate e sentinel

lemma mergeStep_GInv (I : Multiset Nat) (out : List Nat) (s : MState)
    (hG : GInv I out s) : GInv I (out ++ [(mergeStep s).1]) (mergeStep s).2 := by
  obtain ⟨W, hT⟩ := hG.tinv
  have hr256 : s.lt 0 < 256 := by
    rw [hT.root]
    exact hT.w_run 1 (le_refl 1) (by norm_num)
  have hkeys := mergeStep_keys s
  have hrest := mergeStep_rest s
  have hout := mergeStep_out s
  have hhead : s.keys (s.lt 0) ≤ (s.rest (s.lt 0)).headD sentinel := by
    cases hcase : s.rest (s.lt 0) with
    | nil =>
      rw [List.headD_nil]
      exact (hG.bound (s.lt 0) hr256).1
    | cons y t =>
      rw [List.headD_cons]
      have hs := hG.runs (s.lt 0) hr256
      rw [hcase] at hs
      exact (List.sorted_cons.mp hs).1 y (by simp)
  constructor
  · exact mergeStep_TInv s W hT
  · intro i hi
    rw [hkeys, hrest]
    by_cases hir : i = s.lt 0
    · subst hir
      rw [Function.update_same, Function.update_same]
      cases hcase : s.rest (s.lt 0) with
      | nil =>
        rw [List.headD_nil, List.tail_nil]
        exact List.sorted_singleton _
      | cons y t =>
        rw [List.headD_cons, List.tail_cons]
        have hs := hG.runs (s.lt 0) hi
        rw [hcase] at hs
        exact hs.of_cons
    · rw [Function.update_noteq hir, Function.update_noteq hir]
      exact hG.runs i hi
  · intro i hi
    rw [hkeys, hrest]
    by_cases hir : i = s.lt 0
    · subst hir
      rw [Function.update_same, Function.update_same]
      cases hcase : s.rest (s.lt 0) with
      | nil =>
        rw [List.headD_nil, List.tail_nil]
        refine ⟨le_refl sentinel, ?_⟩
        intro x hx
        exact absurd hx (List.not_mem_nil x)
      | cons y t =>
        rw [List.headD_cons, List.tail_cons]
        have hb := hG.bound (s.lt 0) hi
        rw [hcase] at hb
        refine ⟨hb.2 y (by simp), ?_⟩
        intro x hx
        exact hb.2 x (by simp [hx])
    · rw [Function.update_noteq hir, Function.update_noteq hir]
      exact hG.bound i hi
  · refine List.pairwise_append.mpr ⟨hG.outSorted, List.pairwise_singleton _ _, ?_⟩
    intro x hx y hy
    rw [List.mem_singleton] at hy
    subst hy
    rw [hout]
    exact hG.mono x hx (s.lt 0) hr256
  · intro x hx i hi
    rw [hkeys]
    rw [List.mem_append] at hx
    have hxle : x ≤ s.keys (s.lt 0) := by
      rcases hx with hx | hx
      · exact hG.mono x hx (s.lt 0) hr256
      · rw [List.mem_singleton] at hx
        subst hx
        exact le_of_eq hout
    by_cases hir : i = s.lt 0
    · subst hir
      rw [Function.update_same]
      exact le_trans hxle hhead
    · rw [Function.update_noteq hir]
      exact le_trans hxle (hT.root_min hi)
  · obtain ⟨e, hms⟩ := hG.ms
    have hrmem : s.lt 0 ∈ Finset.range 256 := Finset.mem_range.mpr hr256
    have hg2 : (fun i => (mergeStep s).2.keys i
          ::ₘ (((mergeStep s).2.rest i : List Nat) : Multiset Nat))
        = Function.update
            (fun i => s.keys i ::ₘ ((s.rest i : List Nat) : Multiset Nat)) (s.lt 0)
            ((s.rest (s.lt 0)).headD sentinel
              ::ₘ (((s.rest (s.lt 0)).tail : List Nat) : Multiset Nat)) := by
      funext i
      by_cases hir : i = s.lt 0
      · subst hir
        rw [hkeys, hrest, Function.update_same, Function.update_same,
          Function.update_same]
      · rw [hkeys, hrest, Function.update_noteq hir, Function.update_noteq hir,
          Function.update_noteq hir]
    rw [← Finset.sum_erase_add (Finset.range 256) _ hrmem, Finset.erase_eq] at hms
    cases hcase : s.rest (s.lt 0) with
    | nil =>
      refine ⟨e + 1, ?_⟩
      rw [hg2, Finset.sum_update_of_mem hrmem, hcase, List.headD_nil, List.tail_nil,
        Multiset.coe_nil, hout]
      rw [hcase, Multiset.coe_nil] at hms
      have hco : ((out ++ [s.keys (s.lt 0)] : List Nat) : Multiset Nat)
          = (out : Multiset Nat) + (s.keys (s.lt 0) ::ₘ 0) := rfl
      rw [hco, Multiset.replicate_succ]
      have hstep2 : I + (sentinel ::ₘ Multiset.replicate e sentinel)
          = (I + Multiset.replicate e sentinel) + (sentinel ::ₘ 0) := by
        simp only [← Multiset.singleton_add]
        abel
      rw [hstep2, ← hms]
      simp only [← Multiset.singleton_add]
      abel
    | cons y t =>
      refine ⟨e, ?_⟩
      rw [hg2, Finset.sum_update_of_mem hrmem, hcase, List.headD_cons, List.tail_cons,
        hout]
      rw [hcase] at hms
      have hco : ((out ++ [s.keys (s.lt 0)] : List Nat) : Multiset Nat)
          = (out : Multiset Nat) + (s.keys (s.lt 0) ::ₘ 0) := rfl
      rw [hco, ← hms, ← Multiset.cons_coe]
      simp only [← Multiset.singleton_add]
      abel

lemma mergeLoop_cons (s : MState) (n : Nat) :
    mergeLoop s (n + 1) = (mergeStep s).1 :: mergeLoop (mergeStep s).2 n := rfl

lemma mergeLoop_length (n : Nat) : ∀ s : MState, (mergeLoop s n).length = n := by
  induction n with
  | zero => intro s; rfl
  | succ n ih =>
    intro s
    rw [mergeLoop_cons, List.length_cons, ih]

lemma mergeLoop_GInv (I : Multiset Nat) :
    ∀ (n : Nat) (out : List Nat) (s : MState), GInv I out s →
      ∃ s2, GInv I (out ++ mergeLoop s n) s2 := by
  intro n
  induction n with
  | zero =>
    intro out s hG
    refine ⟨s, ?_⟩
    rw [show mergeLoop s 0 = [] from rfl, List.append_nil]
    exact hG
  | succ n ih =>
    intro out s hG
    have h1 : out ++ mergeLoop s (n + 1)
        = (out ++ [(mergeStep s).1]) ++ mergeLoop (mergeStep s).2 n := by
      rw [mergeLoop_cons]
      simp
    rw [h1]
    exact ih (out ++ [(mergeStep s).1]) (mergeStep s).2 (mergeStep_GInv I out s hG)

lemma card_finsum (s : Finset Nat) (f : Nat → Multiset Nat) :
    Multiset.card (s.sum f) = s.sum (fun i => Multiset.card (f i)) := by
  classical
  induction s using Finset.induction_on with
  | empty => rfl
  | insert ha ih =>
    rw [Finset.sum_insert ha, Finset.sum_insert ha, Multiset.card_add, ih]

lemma sum_replicate_sent (s : Finset Nat) (f : Nat → Nat) :
    s.sum (fun i => Multiset.replicate (f i) sentinel)
      = Multiset.replicate (s.sum f) sentinel := by
  classical
  induction s using Finset.induction_on with
  | empty => rfl
  | insert ha ih =>
    rw [Finset.sum_insert ha, Finset.sum_insert ha, Multiset.replicate_add, ih]

/-- Correctness of the 256-way tournament merge: merging sorted bounded runs
and emitting exactly their total length yields their sorted union. -/
theorem merge256_correct (srcs : Nat → List Nat) (n : Nat)
    (hsorted : ∀ i, i < 256 → List.Sorted (fun a b : Nat => a ≤ b) (srcs i))
    (hbound : ∀ i, i < 256 → ∀ x ∈ srcs i, x ≤ sentinel)
    (hn : n = (Finset.range 256).sum (fun i => (srcs i).length)) :
    List.Sorted (fun a b : Nat => a ≤ b) (merge256 srcs n) ∧
    ((merge256 srcs n : List Nat) : Multiset Nat)
      = (Finset.range 256).sum (fun i => ((srcs i : List Nat) : Multiset Nat)) := by
  classical
  set I : Multiset Nat :=
    (Finset.range 256).sum (fun i => ((srcs i : List Nat) : Multiset Nat)) with hI
  have hG0 : GInv I []
      ⟨fun i => (srcs i).headD sentinel, fun i => (srcs i).tail,
        initLT (fun i => (srcs i).headD sentinel)⟩ := by
    constructor
    · exact ⟨(initDown (fun i => (srcs i).headD sentinel) 255).1,
        initLT_TInv (fun i => (srcs i).headD sentinel)⟩
    · intro i hi
      show List.Sorted _ ((srcs i).headD sentinel :: (srcs i).tail)
      cases hcase : srcs i with
      | nil =>
        rw [List.headD_nil, List.tail_nil]
        exact List.sorted_singleton _
      | cons y t =>
        rw [List.headD_cons, List.tail_cons]
        have hs := hsorted i hi
        rw [hcase] at hs
        exact hs
    · intro i hi
      show (srcs i).headD sentinel ≤ sentinel ∧ ∀ x ∈ (srcs i).tail, x ≤ sentinel
      cases hcase : srcs i with
      | nil =>
        rw [List.headD_nil, List.tail_nil]
        refine ⟨le_refl sentinel, ?_⟩
        intro x hx
        exact absurd hx (List.not_mem_nil x)
      | cons y t =>
        rw [List.headD_cons, List.tail_cons]
        have hb := hbound i hi
        rw [hcase] at hb
        refine ⟨hb y (by simp), ?_⟩
        intro x hx
        exact hb x (by simp [hx])
    · exact List.sorted_nil
    · intro x hx
      exact absurd hx (List.not_mem_nil x)
    · refine ⟨(Finset.range 256).sum (fun i => if srcs i = [] then 1 else 0), ?_⟩
      show (0 : Multiset Nat)
          + (Finset.range 256).sum
            (fun i => (srcs i).headD sentinel ::ₘ (((srcs i).tail : List Nat) : Multiset Nat))
          = I + _
      rw [zero_add]
      have hpt : ∀ i ∈ Finset.range 256,
          (srcs i).headD sentinel ::ₘ (((srcs i).tail : List Nat) : Multiset Nat)
            = ((srcs i : List Nat) : Multiset Nat)
              + Multiset.replicate (if srcs i = [] then 1 else 0) sentinel := by
        intro i _
        cases hcase : srcs i with
        | nil =>
          rw [List.headD_nil, List.tail_nil, if_pos rfl, Multiset.coe_nil]
          rfl
        | cons y t =>
          rw [List.headD_cons, List.tail_cons, if_neg (by simp), Multiset.cons_coe,
            Multiset.replicate_zero, add_zero]
      rw [Finset.sum_congr rfl hpt, Finset.sum_add_distrib, sum_replicate_sent, hI]
  obtain ⟨s2, hG2⟩ := mergeLoop_GInv I n []
    ⟨fun i => (srcs i).headD sentinel, fun i => (srcs i).tail,
      initLT (fun i => (srcs i).headD sentinel)⟩ hG0
  rw [List.nil_append] at hG2
  have hmerge : merge256 srcs n = mergeLoop
      ⟨fun i => (srcs i).headD sentinel, fun i => (srcs i).tail,
        initLT (fun i => (srcs i).headD sentinel)⟩ n := rfl
  rw [hmerge]
  set out := mergeLoop
    ⟨fun i => (srcs i).headD sentinel, fun i => (srcs i).tail,
      initLT (fun i => (srcs i).headD sentinel)⟩ n with hodef
  refine ⟨hG2.outSorted, ?_⟩
  -- cardinalities
  have hlen : out.length = n := mergeLoop_length n _
  have hcardI : Multiset.card I = n := by
    rw [hI, card_finsum, hn]
    apply Finset.sum_congr rfl
    intro i _
    exact Multiset.coe_card (srcs i)
  obtain ⟨e, hms⟩ := hG2.ms
  have hcards := congrArg Multiset.card hms
  rw [Multiset.card_add, Multiset.card_add, Multiset.card_replicate,
    Multiset.coe_card, hlen, hcardI] at hcards
  by_cases hsent : sentinel ∈ out
  · -- a sentinel was emitted: everything remaining is a sentinel
    have hnodes : (Finset.range 256).sum
        (fun i => s2.keys i ::ₘ ((s2.rest i : List Nat) : Multiset Nat))
        = Multiset.replicate e sentinel := by
      rw [Multiset.eq_replicate]
      constructor
      · omega
      · intro b hb
        rw [Multiset.mem_sum] at hb
        obtain ⟨i, hi, hbi⟩ := hb
        rw [Finset.mem_range] at hi
        have hkeyseq : s2.keys i = sentinel :=
          le_antisymm (hG2.bound i hi).1 (hG2.mono sentinel hsent i hi)
        rw [Multiset.mem_cons] at hbi
        rcases hbi with hbi | hbi
        · rw [hbi, hkeyseq]
        · rw [Multiset.mem_coe] at hbi
          have h1 : s2.keys i ≤ b := (List.sorted_cons.mp (hG2.runs i hi)).1 b hbi
          have h2 : b ≤ sentinel := (hG2.bound i hi).2 b hbi
          rw [hkeyseq] at h1
          omega
    rw [hnodes] at hms
    exact add_right_cancel hms
  · -- no sentinel emitted: count comparison
    have hle : ((out : List Nat) : Multiset Nat) ≤ I := by
      rw [Multiset.le_iff_count]
      intro a
      by_cases ha : a = sentinel
      · subst ha
        rw [Multiset.count_eq_zero_of_not_mem (by
          rw [Multiset.mem_coe]
          exact hsent)]
        exact Nat.zero_le _
      · have hca := congrArg (Multiset.count a) hms
        rw [Multiset.count_add, Multiset.count_add, Multiset.count_replicate,
          if_neg (by omega)] at hca
        omega
    have := Multiset.eq_of_le_of_card_le hle (by
      rw [Multiset.coe_card, hlen, hcardI])
    exact this

lemma list_sum_range {M : Type} [AddCommMonoid M] (f : Nat → M) (n : Nat) :
    ((List.range n).map f).sum = (Finset.range n).sum f := by
  induction n with
  | zero => rfl
  | succ n ih =>
    rw [List.range_succ, List.map_append, List.sum_append, ih, Finset.sum_range_succ]
    simp

lemma flatten_coe (L : List (List Nat)) :
    ((L.flatten : List Nat) : Multiset Nat)
      = (L.map (fun l => ((l : List Nat) : Multiset Nat))).sum := by
  induction L with
  | nil => rfl
  | cons a t ih =>
    rw [List.flatten_cons, List.map_cons, List.sum_cons, ← ih]
    rfl

lemma chunks_take (data : List Nat) :
    ∀ k, ((List.range k).map (chunkOf data)).flatten
      = data.take (data.length * k / NMERGE) := by
  intro k
  induction k with
  | zero => simp
  | succ k ih =>
    rw [List.range_succ, List.map_append, List.flatten_append, ih]
    have hmono : data.length * k / NMERGE ≤ data.length * (k + 1) / NMERGE :=
      Nat.div_le_div_right (Nat.mul_le_mul_left _ (by omega))
    rw [show data.length * (k + 1) / NMERGE
        = data.length * k / NMERGE
          + (data.length * (k + 1) / NMERGE - data.length * k / NMERGE) by omega]
    rw [List.take_add]
    congr 1
    simp [chunkOf]

lemma chunks_flatten (data : List Nat) :
    ((List.range 256).map (chunkOf data)).flatten = data := by
  rw [chunks_take data 256]
  rw [show data.length * 256 / NMERGE = data.length from by
    have hN : NMERGE = 256 := rfl
    rw [hN]
    omega]
  exact List.take_length data

lemma chunk_lengths (data : List Nat) :
    (Finset.range 256).sum (fun i => (chunkOf data i).length) = data.length := by
  have h := congrArg List.length (chunks_flatten data)
  rw [List.length_flatten, List.map_map] at h
  rw [← list_sum_range (fun i => (chunkOf data i).length) 256]
  exact h

lemma chunk_ms (data : List Nat) :
    (Finset.range 256).sum (fun i => ((chunkOf data i : List Nat) : Multiset Nat))
      = (data : Multiset Nat) := by
  have h2 : ((List.range 256).map
        (fun i => ((chunkOf data i : List Nat) : Multiset Nat))).sum
      = ((((List.range 256).map (chunkOf data)).flatten : List Nat) : Multiset Nat) := by
    rw [flatten_coe, List.map_map]
    rfl
  rw [← list_sum_range, h2, chunks_flatten]

lemma sortUnstable_correct (l : List Nat) :
    List.Sorted (fun a b : Nat => a ≤ b) (sortUnstable l) ∧
    ((sortUnstable l : List Nat) : Multiset Nat) = (l : Multiset Nat) := by
  constructor
  · exact List.sorted_mergeSort' l
  · exact Quot.sound (List.mergeSort_perm l _)

lemma sorted_chunks_getD (data : List Nat) (i : Nat) (hi : i < 256) :
    ((List.range NMERGE).attach.map
      (fun t => wide_merge_sort_recursive (chunkOf data t.1))).getD i []
      = wide_merge_sort_recursive (chunkOf data i) := by
  have hN : NMERGE = 256 := rfl
  have hlen : ((List.range NMERGE).attach.map
      (fun t => wide_merge_sort_recursive (chunkOf data t.1))).length = 256 := by
    rw [List.length_map, List.length_attach, List.length_range, hN]
  rw [List.getD_eq_getElem _ _ (by rw [hlen]; exact hi)]
  rw [List.getElem_map]
  simp [List.getElem_attach]

/-- The list of recursively sorted chunks built in the else-branch of
`wide_merge_sort_recursive`. -/
def sortedChunks (data : List Nat) : List (List Nat) :=
  (List.range NMERGE).attach.map
    (fun t => wide_merge_sort_recursive (chunkOf data t.1))

lemma wmsRec_eq (data : List Nat) (h : ¬ data.length ≤ 1024) :
    wide_merge_sort_recursive data
      = merge256 (fun i => (sortedChunks data).getD i []) data.length := by
  rw [wide_merge_sort_recursive, dif_neg h]
  rfl

lemma sortedChunks_getD (data : List Nat) (i : Nat) (hi : i < 256) :
    (sortedChunks data).getD i [] = wide_merge_sort_recursive (chunkOf data i) := by
  unfold sortedChunks
  exact sorted_chunks_getD data i hi

/-- Merging 256 sorted, bounded lists that repartition `data`'s chunks yields
a sorted permutation of `data`. -/
lemma merged_output_correct (cs : Nat → List Nat) (data : List Nat)
    (hs : ∀ i, i < 256 → List.Sorted (fun a b : Nat => a ≤ b) (cs i))
    (hbd : ∀ i, i < 256 → ∀ x ∈ cs i, x ≤ sentinel)
    (hms : ∀ i, i < 256 →
      ((cs i : List Nat) : Multiset Nat) = ((chunkOf data i : List Nat) : Multiset Nat)) :
    List.Sorted (fun a b : Nat => a ≤ b) (merge256 cs data.length) ∧
    ((merge256 cs data.length : List Nat) : Multiset Nat) = (data : Multiset Nat) := by
  have hn : data.length = (Finset.range 256).sum (fun i => (cs i).length) := by
    rw [show (Finset.range 256).sum (fun i => (cs i).length)
        = (Finset.range 256).sum (fun i => (chunkOf data i).length) from
      Finset.sum_congr rfl (by
        intro i hi
        rw [Finset.mem_range] at hi
        have h := congrArg Multiset.card (hms i hi)
        rw [Multiset.coe_card, Multiset.coe_card] at h
        exact h)]
    rw [chunk_lengths]
  have hres := merge256_correct cs data.length hs hbd hn
  refine ⟨hres.1, hres.2.trans ?_⟩
  rw [Finset.sum_congr rfl (fun i hi => hms i (Finset.mem_range.mp hi)), chunk_ms]

/-- `wide_merge_sort_recursive` sorts: strong induction on the length. -/
lemma wmsRec_correct :
    ∀ (N : Nat) (data : List Nat), data.length ≤ N → (∀ x ∈ data, x ≤ sentinel) →
      List.Sorted (fun a b : Nat => a ≤ b) (wide_merge_sort_recursive data) ∧
      ((wide_merge_sort_recursive data : List Nat) : Multiset Nat)
        = (data : Multiset Nat) := by
  intro N
  induction N with
  | zero =>
    intro data hlen _
    rw [wide_merge_sort_recursive, dif_pos (by omega)]
    exact sortUnstable_correct data
  | succ N ih =>
    intro data hlen hb
    by_cases hsmall : data.length ≤ 1024
    · rw [wide_merge_sort_recursive, dif_pos hsmall]
      exact sortUnstable_correct data
    · rw [wmsRec_eq data hsmall]
      have hchunk : ∀ i, i < 256 →
          List.Sorted (fun a b : Nat => a ≤ b)
            (wide_merge_sort_recursive (chunkOf data i)) ∧
          ((wide_merge_sort_recursive (chunkOf data i) : List Nat) : Multiset Nat)
            = ((chunkOf data i : List Nat) : Multiset Nat) := by
        intro i _
        refine ih (chunkOf data i) ?_ ?_
        · have := chunkOf_length_lt data i (by omega)
          omega
        · intro x hx
          apply hb
          exact List.drop_subset _ data (List.take_subset _ _ hx)
      apply merged_output_correct
      · intro i hi
        rw [sortedChunks_getD data i hi]
        exact (hchunk i hi).1
      · intro i hi x hx
        rw [sortedChunks_getD data i hi] at hx
        have hxc : x ∈ chunkOf data i := by
          rw [← Multiset.mem_coe, ← (hchunk i hi).2, Multiset.mem_coe]
          exact hx
        apply hb
        exact List.drop_subset _ data (List.take_subset _ _ hxc)
      · intro i hi
        rw [sortedChunks_getD data i hi]
        exact (hchunk i hi).2

/-- C4: for every input of 64-bit values — including inputs containing
`u64::MAX`, the merge's exhaustion sentinel — `wide_merge_sort` returns an
output of the same length that is a non-decreasing reordering of the same
multiset as the input. -/
theorem claim_C4_wide_merge_sort_correct (data : List Nat)
    (hb : ∀ x ∈ data, x < 2 ^ 64) :
    (wide_merge_sort data).length = data.length ∧
    List.Sorted (fun a b : Nat => a ≤ b) (wide_merge_sort data) ∧
    ((wide_merge_sort data : List Nat) : Multiset Nat) = (data : Multiset Nat) := by
  have hb2 : ∀ x ∈ data, x ≤ sentinel := by
    intro x hx
    have h1 := hb x hx
    have hs : sentinel = 2 ^ 64 - 1 := rfl
    omega
  have hmain : List.Sorted (fun a b : Nat => a ≤ b) (wide_merge_sort data) ∧
      ((wide_merge_sort data : List Nat) : Multiset Nat) = (data : Multiset Nat) := by
    unfold wide_merge_sort
    by_cases hsmall : data.length ≤ 1024
    · rw [if_pos hsmall]
      exact sortUnstable_correct data
    · rw [if_neg hsmall]
      exact wmsRec_correct data.length data (le_refl _) hb2
  refine ⟨?_, hmain.1, hmain.2⟩
  have h := congrArg Multiset.card hmain.2
  rw [Multiset.coe_card, Multiset.coe_card] at h
  exact h

theorem claim_C4_wide_merge_sort_correct_witness :
    (∀ x ∈ [3, 1, 2, 2 ^ 64 - 1], x < 2 ^ 64) ∧
    ((wide_merge_sort [3, 1, 2, 2 ^ 64 - 1]).length = 4 ∧
      List.Sorted (fun a b : Nat => a ≤ b) (wide_merge_sort [3, 1, 2, 2 ^ 64 - 1]) ∧
      ((wide_merge_sort [3, 1, 2, 2 ^ 64 - 1] : List Nat) : Multiset Nat)
        = ([3, 1, 2, 2 ^ 64 - 1] : Multiset Nat)) :=
  ⟨by decide, claim_C4_wide_merge_sort_correct [3, 1, 2, 2 ^ 64 - 1] (by decide)⟩

end HashedSorting
